import Mathlib

/-!
Verification development for the 3dbag-runner pipeline.

Shallow embedding of the core algorithms of the repository:
grid partitioning (src/roofhelper/kadaster/geo.py), point-cloud tile
splitting (src/roofhelper/pointcloud/laz.py), work-manifest construction
(src/argo/roofer.py, src/argo/tyler.py), the batched producer/consumer
writer (src/main.py height_database, src/roofhelper/kadaster/bag.py
extract_by_year), the multi-backend storage facade
(src/roofhelper/io/SchemeFileHandler.py and the scheme handlers), and the
tile-coordinate filename parser (src/argo/tyler.py).

Python floats are modelled as exact rationals, Python int as Int/Nat,
Python str as Lean String (with character-list helpers that reduce in the
kernel), I/O effects (file existence, blob stores) as explicit oracles or
state passed to the functions.
-/

/-! ## Generic counting helpers -/

/-- Summing an indicator plus a function splits into a count plus a sum. -/
theorem sum_map_ite_add {β : Type} (p : β → Bool) (f : β → ℕ) (bs : List β) :
    (bs.map (fun b => (if p b then 1 else 0) + f b)).sum =
      bs.countP p + (bs.map f).sum := by
  induction bs with
  | nil => simp
  | cons b bs ih =>
    simp only [List.map_cons, List.sum_cons, ih, List.countP_cons]
    by_cases h : p b <;> simp [h] <;> omega

/-- Double counting: summing, over a, the number of b related to a equals
summing, over b, the number of a related to b. -/
theorem sum_map_filter_length_swap {α β : Type} (R : α → β → Bool)
    (as : List α) (bs : List β) :
    ((as.map (fun a => (bs.filter (fun b => R a b)).length)).sum) =
      ((bs.map (fun b => (as.filter (fun a => R a b)).length)).sum) := by
  induction as with
  | nil =>
    simp
  | cons a as ih =>
    simp only [List.map_cons, List.sum_cons, ih]
    have hpt : ∀ b, ((a :: as).filter (fun x => R x b)).length =
        (if R a b then 1 else 0) + (as.filter (fun x => R x b)).length := by
      intro b
      rw [List.filter_cons]
      by_cases h : R a b <;> simp [h] <;> omega
    have hfun : (fun b => ((a :: as).filter (fun x => R x b)).length) =
        (fun b => (if R a b then 1 else 0) + (as.filter (fun x => R x b)).length) :=
      funext hpt
    rw [hfun, sum_map_ite_add, List.countP_eq_length_filter]

/-- Counting over a range with a unique witness yields one. -/
theorem countP_range_eq_one (P : ℕ → Bool) (i0 : ℕ) (hP : P i0 = true) :
    ∀ n, i0 < n → (∀ i, i < n → P i = true → i = i0) →
      (List.range n).countP P = 1 := by
  intro n
  induction n with
  | zero => intro h0; omega
  | succ m ih =>
    intro h0 huniq
    rw [List.range_succ, List.countP_append]
    by_cases hm : i0 = m
    · subst hm
      have hzero : (List.range i0).countP P = 0 := by
        rw [List.countP_eq_zero]
        intro i hi hPi
        have hilt : i < i0 := List.mem_range.mp hi
        have := huniq i (by omega) hPi
        omega
      simp [hzero, List.countP_cons, hP]
    · have hi0 : i0 < m := by omega
      have hPm : ¬ P m = true := by
        intro hPm
        exact hm ((huniq m (by omega) hPm).symm)
      rw [ih hi0 (fun i hi hp => huniq i (by omega) hp)]
      simp [List.countP_cons, hPm]

/-- Round robin count: among 0, ..., M-1, the number of indices congruent
to w modulo N. -/
theorem countP_range_mod (N w : ℕ) (hN : 0 < N) (hw : w < N) :
    ∀ M, (List.range M).countP (fun i => i % N == w) =
      M / N + (if w < M % N then 1 else 0) := by
  intro M
  induction M with
  | zero => simp
  | succ m ih =>
    rw [List.range_succ, List.countP_append, ih]
    have hdm : N * (m / N) + m % N = m := Nat.div_add_mod m N
    have hmlt : m % N < N := Nat.mod_lt m hN
    have hsingle : (List.countP (fun i => i % N == w) [m]) =
        if m % N = w then 1 else 0 := by
      simp only [List.countP_cons, List.countP_nil]
      by_cases h : m % N = w <;> simp [h]
    rw [hsingle]
    by_cases hr : m % N + 1 = N
    · have hmul : N * (m / N + 1) = N * (m / N) + N := by ring
      have hsum : m + 1 = N * (m / N + 1) := by omega
      have hdiv : (m + 1) / N = m / N + 1 := by
        rw [hsum, Nat.mul_div_cancel_left _ hN]
      have hmod : (m + 1) % N = 0 := by
        rw [hsum]
        exact Nat.mul_mod_right _ _
      rw [hdiv, hmod, if_neg (Nat.not_lt_zero w)]
      by_cases heq : m % N = w
      · rw [if_pos heq, if_neg (by omega)]
      · rw [if_neg heq, if_pos (by omega)]
    · have hm1 : m + 1 = (m % N + 1) + N * (m / N) := by omega
      have hdiv : (m + 1) / N = m / N := by
        rw [hm1, Nat.add_mul_div_left _ _ hN, Nat.div_eq_of_lt (by omega)]
        omega
      have hmod : (m + 1) % N = m % N + 1 := by
        rw [hm1, Nat.add_mul_mod_self_left, Nat.mod_eq_of_lt (by omega)]
      rw [hdiv, hmod]
      by_cases heq : m % N = w
      · rw [if_pos heq, if_neg (by omega), if_pos (by omega)]
      · by_cases hlt : w < m % N
        · rw [if_pos hlt, if_neg heq, if_pos (by omega)]
        · rw [if_neg hlt, if_neg heq, if_neg (by omega)]

/-- Ceiling division characterization used for the fairness bound. -/
theorem ceil_div_cases (M N : ℕ) (hN : 0 < N) :
    (M % N = 0 → (M + N - 1) / N = M / N) ∧
      (0 < M % N → (M + N - 1) / N = M / N + 1) := by
  have hdm : N * (M / N) + M % N = M := Nat.div_add_mod M N
  have hmlt : M % N < N := Nat.mod_lt M hN
  constructor
  · intro h0
    have hM : M + N - 1 = (N - 1) + N * (M / N) := by omega
    rw [hM, Nat.add_mul_div_left _ _ hN, Nat.div_eq_of_lt (by omega)]
    omega
  · intro hpos
    have hmul : N * (M / N + 1) = N * (M / N) + N := by ring
    have hM : M + N - 1 = (M % N - 1) + N * (M / N + 1) := by omega
    rw [hM, Nat.add_mul_div_left _ _ hN, Nat.div_eq_of_lt (by omega)]
    omega

/-! ## Work manifest construction

Embedding of queuefunc from src/argo/roofer.py (lines 26-38) and
src/argo/tyler.py (lines 44-50).  enumerate is modelled by an explicit
index accumulator; the destination function and the destination-existence
check (file_handler.navigate / file_handler.file_exists) are oracles.  -/

/-- Work item of the roofer manifest: worker id, payload (grid extent) and
destination URI, as appended by queuefunc in src/argo/roofer.py. -/
structure RooferWorkItem (α : Type) where
  worker : ℕ
  extent : α
  destination : String
deriving DecidableEq

/-- Loop of queuefunc (src/argo/roofer.py lines 27-38): for each enumerated
grid cell compute worker = index mod workercount and the destination; if
the destination does not exist, append the item, otherwise skip it. -/
def rooferQueueAux {α : Type} (workercount : ℕ) (dest : α → String)
    (exs : String → Bool) : ℕ → List α → List (RooferWorkItem α)
  | _, [] => []
  | i, a :: rest =>
    if exs (dest a) then
      rooferQueueAux workercount dest exs (i + 1) rest
    else
      ⟨i % workercount, a, dest a⟩ :: rooferQueueAux workercount dest exs (i + 1) rest

/-- queuefunc of src/argo/roofer.py: build the manifest from the full grid
enumeration starting at index 0. -/
def rooferQueuefunc {α : Type} (workercount : ℕ) (grid : List α)
    (dest : α → String) (exs : String → Bool) : List (RooferWorkItem α) :=
  rooferQueueAux workercount dest exs 0 grid

/-- queuefunc of src/argo/tyler.py (lines 44-50): every region is appended
with worker = index mod workercount; no existence filtering. -/
def tylerQueueAux {β : Type} (workercount : ℕ) : ℕ → List β → List (ℕ × β)
  | _, [] => []
  | i, b :: rest => (i % workercount, b) :: tylerQueueAux workercount (i + 1) rest

/-- queuefunc of src/argo/tyler.py, starting the enumeration at 0. -/
def tylerQueuefunc {β : Type} (workercount : ℕ) (regions : List β) : List (ℕ × β) :=
  tylerQueueAux workercount 0 regions

/-- Number of items of the manifest assigned to worker w. -/
def rooferWorkerCount {α : Type} (w : ℕ) (q : List (RooferWorkItem α)) : ℕ :=
  q.countP (fun it => it.worker == w)

/-- Number of items of the tyler manifest assigned to worker w. -/
def tylerWorkerCount {β : Type} (w : ℕ) (q : List (ℕ × β)) : ℕ :=
  q.countP (fun it => it.1 == w)

theorem rooferQueueAux_mem {α : Type} (N : ℕ) (dest : α → String)
    (exs : String → Bool) :
    ∀ (grid : List α) (i : ℕ) (it : RooferWorkItem α),
      it ∈ rooferQueueAux N dest exs i grid →
        exs it.destination = false ∧ it.destination = dest it.extent := by
  intro grid
  induction grid with
  | nil => intro i it h; simp [rooferQueueAux] at h
  | cons a rest ih =>
    intro i it h
    simp only [rooferQueueAux] at h
    by_cases hx : exs (dest a)
    · rw [if_pos hx] at h
      exact ih (i + 1) it h
    · rw [if_neg hx] at h
      rcases List.mem_cons.mp h with h2 | h2
      · subst h2
        exact ⟨by simpa using hx, rfl⟩
      · exact ih (i + 1) it h2

theorem rooferQueueAux_covers {α : Type} (N : ℕ) (dest : α → String)
    (exs : String → Bool) :
    ∀ (grid : List α) (i : ℕ) (a : α), a ∈ grid → exs (dest a) = false →
      ∃ it ∈ rooferQueueAux N dest exs i grid,
        it.extent = a ∧ it.destination = dest a := by
  intro grid
  induction grid with
  | nil => intro i a h; simp at h
  | cons b rest ih =>
    intro i a hmem hexa
    rcases List.mem_cons.mp hmem with h | h
    · subst h
      simp only [rooferQueueAux]
      rw [if_neg (by simp [hexa])]
      exact ⟨⟨i % N, a, dest a⟩, List.mem_cons_self _ _, rfl, rfl⟩
    · by_cases hx : exs (dest b)
      · simp only [rooferQueueAux]
        rw [if_pos hx]
        exact ih (i + 1) a h hexa
      · simp only [rooferQueueAux]
        rw [if_neg hx]
        obtain ⟨it, hit, hh⟩ := ih (i + 1) a h hexa
        exact ⟨it, List.mem_cons_of_mem _ hit, hh⟩

theorem rooferQueueAux_empty_of_all_exist {α : Type} (N : ℕ) (dest : α → String)
    (exs : String → Bool) :
    ∀ (grid : List α) (i : ℕ), (∀ a ∈ grid, exs (dest a) = true) →
      rooferQueueAux N dest exs i grid = [] := by
  intro grid
  induction grid with
  | nil => intro i _; rfl
  | cons a rest ih =>
    intro i hall
    simp only [rooferQueueAux]
    rw [if_pos (hall a (List.mem_cons_self _ _)),
      ih (i + 1) (fun b hb => hall b (List.mem_cons_of_mem _ hb))]

/-- C3: manifest building excludes exactly the units whose destination
already exists, and a second partition plus assign run performed after all
destinations of the first manifest were produced (and no output was
cleared) yields an empty manifest: zero new non-skipped work items.
Embeds queuefunc of src/argo/roofer.py; exs is the destination-existence
oracle of the first run, exs2 the one of the second run. -/
theorem C3_manifest_resumable {α : Type} (N : ℕ) (grid : List α)
    (dest : α → String) (exs exs2 : String → Bool)
    (hkeep : ∀ a ∈ grid, exs (dest a) = true → exs2 (dest a) = true)
    (hdone : ∀ a ∈ grid, exs (dest a) = false → exs2 (dest a) = true) :
    (∀ it ∈ rooferQueuefunc N grid dest exs, exs it.destination = false) ∧
      (∀ a ∈ grid, exs (dest a) = false →
        ∃ it ∈ rooferQueuefunc N grid dest exs,
          it.extent = a ∧ it.destination = dest a) ∧
      rooferQueuefunc N grid dest exs2 = [] := by
  refine ⟨?_, ?_, ?_⟩
  · intro it hit
    exact (rooferQueueAux_mem N dest exs grid 0 it hit).1
  · intro a ha hexa
    exact rooferQueueAux_covers N dest exs grid 0 a ha hexa
  · apply rooferQueueAux_empty_of_all_exist
    intro a ha
    by_cases hx : exs (dest a)
    · exact hkeep a ha hx
    · exact hdone a ha (by simpa using hx)

/-- C3 witness: concrete instantiation with two units, one previously
completed, destinations marked existing after the first run. -/
theorem C3_manifest_resumable_witness :
    (∀ it ∈ rooferQueuefunc 2 ["a", "b"] id (fun s => s == "a"),
        (fun s : String => s == "a") it.destination = false) ∧
      (∀ a ∈ ["a", "b"], (fun s : String => s == "a") (id a) = false →
        ∃ it ∈ rooferQueuefunc 2 ["a", "b"] id (fun s => s == "a"),
          it.extent = a ∧ it.destination = id a) ∧
      rooferQueuefunc 2 ["a", "b"] id (fun _ => true) = [] :=
  C3_manifest_resumable 2 ["a", "b"] id (fun s => s == "a") (fun _ => true)
    (fun _ _ _ => rfl) (fun _ _ _ => rfl)

/-! ### Worker fairness (C5) -/

theorem tylerQueueAux_map_fst {β : Type} (N : ℕ) :
    ∀ (regions : List β) (i : ℕ),
      (tylerQueueAux N i regions).map (fun it => it.1) =
        (List.range' i regions.length).map (fun j => j % N) := by
  intro regions
  induction regions with
  | nil => intro i; rfl
  | cons b rest ih =>
    intro i
    simp only [tylerQueueAux, List.map_cons, List.length_cons]
    rw [List.range'_succ, List.map_cons, ih (i + 1)]

theorem rooferQueueAux_map_fst_noskip {α : Type} (N : ℕ) (dest : α → String) :
    ∀ (grid : List α) (i : ℕ),
      (rooferQueueAux N dest (fun _ => false) i grid).map (fun it => it.worker) =
        (List.range' i grid.length).map (fun j => j % N) := by
  intro grid
  induction grid with
  | nil => intro i; rfl
  | cons a rest ih =>
    intro i
    simp only [rooferQueueAux]
    rw [if_neg (by simp)]
    simp only [List.map_cons, List.length_cons]
    rw [List.range'_succ, List.map_cons, ih (i + 1)]

/-- Round-robin fairness for a full enumeration assigned by index mod N. -/
theorem fairness_of_range_mod (N w M : ℕ) (hN : 0 < N) (hw : w < N) :
    ((List.range M).map (fun j => j % N)).countP (fun v => v == w) = M / N ∨
      ((List.range M).map (fun j => j % N)).countP (fun v => v == w) =
        (M + N - 1) / N := by
  rw [List.countP_map]
  have hcnt := countP_range_mod N w hN hw M
  have hcc := ceil_div_cases M N hN
  have heq : ((fun v => v == w) ∘ fun j => j % N) = (fun i => i % N == w) := rfl
  rw [heq, hcnt]
  by_cases h0 : M % N = 0
  · left
    simp [h0]
  · by_cases hlt : w < M % N
    · right
      rw [hcc.2 (by omega)]
      simp [hlt]
    · left
      simp [hlt]

/-- C5 counterexample input: four cells, destinations of cells 0 and 2
already exist. -/
def c5Grid : List String := ["a", "b", "c", "d"]

/-- C5 counterexample existence oracle: destinations "a" and "c" exist. -/
def c5Exists : String → Bool := fun s => s == "a" || s == "c"

/-- C5 counterexample: in queuefunc of src/argo/roofer.py the worker index
is computed from the pre-filter enumeration, so after existence filtering
the manifest of M = 2 items over N = 2 workers gives worker 0 zero items
and worker 1 two items, while floor(2/2) = ceil(2/2) = 1: the claimed
fairness bound fails for a manifest with skipped units. -/
theorem C5_fairness_counterexample :
    (rooferQueuefunc 2 c5Grid id c5Exists).length = 2 ∧
      rooferWorkerCount 0 (rooferQueuefunc 2 c5Grid id c5Exists) = 0 ∧
      rooferWorkerCount 1 (rooferQueuefunc 2 c5Grid id c5Exists) = 2 ∧
      ¬ (rooferWorkerCount 0 (rooferQueuefunc 2 c5Grid id c5Exists) = 2 / 2 ∨
        rooferWorkerCount 0 (rooferQueuefunc 2 c5Grid id c5Exists) =
          (2 + 2 - 1) / 2) := by
  refine ⟨?_, ?_, ?_, ?_⟩ <;> decide

/-- C5 amended: round-robin fairness holds for every manifest built from a
full enumeration with worker = index mod N: the tyler queue always, and
the roofer queue when no destination pre-exists (no unit is skipped).
With skipping, roofer worker ids keep their pre-filter indices and the
bound can fail (see the counterexample). -/
theorem C5_fairness_amended {α β : Type} (N w : ℕ) (hN : 0 < N) (hw : w < N)
    (regions : List β) (grid : List α) (dest : α → String) :
    (tylerWorkerCount w (tylerQueuefunc N regions) = regions.length / N ∨
      tylerWorkerCount w (tylerQueuefunc N regions) =
        (regions.length + N - 1) / N) ∧
    (rooferWorkerCount w (rooferQueuefunc N grid dest (fun _ => false)) =
        grid.length / N ∨
      rooferWorkerCount w (rooferQueuefunc N grid dest (fun _ => false)) =
        (grid.length + N - 1) / N) := by
  have hrange : List.range regions.length = List.range' 0 regions.length :=
    List.range_eq_range' _
  have hrange2 : List.range grid.length = List.range' 0 grid.length :=
    List.range_eq_range' _
  constructor
  · have hmap := tylerQueueAux_map_fst N regions 0
    have hc : tylerWorkerCount w (tylerQueuefunc N regions) =
        ((List.range regions.length).map (fun j => j % N)).countP
          (fun v => v == w) := by
      rw [tylerWorkerCount, tylerQueuefunc, hrange,
        show (fun it : ℕ × β => it.1 == w) =
          ((fun v => v == w) ∘ fun it : ℕ × β => it.1) from rfl,
        ← List.countP_map, hmap]
    rw [hc]
    exact fairness_of_range_mod N w regions.length hN hw
  · have hmap := rooferQueueAux_map_fst_noskip N dest grid 0
    have hc : rooferWorkerCount w (rooferQueuefunc N grid dest (fun _ => false)) =
        ((List.range grid.length).map (fun j => j % N)).countP
          (fun v => v == w) := by
      rw [rooferWorkerCount, rooferQueuefunc, hrange2,
        show (fun it : RooferWorkItem α => it.worker == w) =
          ((fun v => v == w) ∘ fun it : RooferWorkItem α => it.worker) from rfl,
        ← List.countP_map, hmap]
    rw [hc]
    exact fairness_of_range_mod N w grid.length hN hw

/-- C5 witness: seven items over three workers; worker 0 receives
ceil(7/3) = 3 items (indices 0, 3, 6), matching the spec scenario. -/
theorem C5_fairness_amended_witness :
    ((tylerWorkerCount 0 (tylerQueuefunc 3 [10, 11, 12, 13, 14, 15, 16]) = 7 / 3 ∨
      tylerWorkerCount 0 (tylerQueuefunc 3 [10, 11, 12, 13, 14, 15, 16]) =
        (7 + 3 - 1) / 3) ∧
    (rooferWorkerCount 0 (rooferQueuefunc 3 ["a"] id (fun _ => false)) = 1 / 3 ∨
      rooferWorkerCount 0 (rooferQueuefunc 3 ["a"] id (fun _ => false)) =
        (1 + 3 - 1) / 3)) ∧
    (tylerQueuefunc 3 [10, 11, 12, 13, 14, 15, 16]).map (fun it => it.1) =
      [0, 1, 2, 0, 1, 2, 0] := by
  constructor
  · exact C5_fairness_amended 3 0 (by decide) (by decide)
      [10, 11, 12, 13, 14, 15, 16] ["a"] id
  · decide

/-! ## Streaming feature pipeline consumer (C6)

Embedding of the consumer loop of height_database in src/main.py
(lines 413-432); extract_by_year in src/roofhelper/kadaster/bag.py
(lines 173-191) implements the same batching scheme.  The queue is
modelled by the finite list of records popped before the sentinel. -/

/-- One loop iteration of the consumer: append the popped record to the
batch; when the accumulated length is a multiple of the batch size, write
the batch to the sink (collected in the first component) and clear it. -/
def consumerStep {R : Type} (batchSize : ℕ) (st : List (List R) × List R)
    (item : R) : List (List R) × List R :=
  let batch := st.2 ++ [item]
  if batch.length % batchSize = 0 then (st.1 ++ [batch], []) else (st.1, batch)

/-- The consumer while-loop up to the sentinel: writes performed so far
and the pending partial batch. -/
def consumerLoop {R : Type} (records : List R) (batchSize : ℕ) :
    List (List R) × List R :=
  records.foldl (consumerStep batchSize) ([], [])

/-- Full consumer of height_database (src/main.py lines 413-432): after
the sentinel, flush the remaining partial batch if it is non-empty.
Returns the list of writerecords calls, in order. -/
def heightDatabaseConsumer {R : Type} (records : List R) (batchSize : ℕ) :
    List (List R) :=
  let st := consumerLoop records batchSize
  if 0 < st.2.length then st.1 ++ [st.2] else st.1

theorem sum_map_const_nat {γ : Type} (l : List γ) (b : ℕ) :
    (l.map (fun _ => b)).sum = b * l.length := by
  induction l with
  | nil => simp
  | cons x xs ih =>
    simp only [List.map_cons, List.sum_cons, ih, List.length_cons, Nat.mul_succ]
    omega

theorem consumerLoop_inv {R : Type} (b : ℕ) (hb : 0 < b) :
    ∀ (records : List R) (ws : List (List R)) (bt : List R),
      bt.length < b → (∀ w ∈ ws, w.length = b) →
      ((records.foldl (consumerStep b) (ws, bt)).1.flatten ++
          (records.foldl (consumerStep b) (ws, bt)).2 =
        ws.flatten ++ bt ++ records) ∧
      (∀ w ∈ (records.foldl (consumerStep b) (ws, bt)).1, w.length = b) ∧
      (records.foldl (consumerStep b) (ws, bt)).2.length < b := by
  intro records
  induction records with
  | nil =>
    intro ws bt hbt hws
    refine ⟨by simp, hws, hbt⟩
  | cons r rest ih =>
    intro ws bt hbt hws
    rw [List.foldl_cons]
    have hx : (bt ++ [r]).length = bt.length + 1 := by simp
    by_cases hfull : (bt ++ [r]).length % b = 0
    · have hlen : (bt ++ [r]).length = b := by
        rcases Nat.lt_or_ge (bt ++ [r]).length b with h | h
        · rw [Nat.mod_eq_of_lt h] at hfull
          omega
        · omega
      have hstep : consumerStep b (ws, bt) r = (ws ++ [bt ++ [r]], []) := by
        simp only [consumerStep]
        rw [if_pos hfull]
      rw [hstep]
      have hws2 : ∀ w ∈ ws ++ [bt ++ [r]], w.length = b := by
        intro w hw
        rcases List.mem_append.mp hw with h | h
        · exact hws w h
        · rcases List.mem_cons.mp h with h2 | h2
          · rw [h2]
            exact hlen
          · simp at h2
      obtain ⟨h1, h2, h3⟩ := ih (ws ++ [bt ++ [r]]) [] (by simpa using hb) hws2
      refine ⟨?_, h2, h3⟩
      rw [h1]
      simp
    · have hlt : (bt ++ [r]).length < b := by
        rcases Nat.lt_or_ge (bt ++ [r]).length b with h | h
        · exact h
        · exfalso
          have hb2 : (bt ++ [r]).length = b := by omega
          rw [hb2, Nat.mod_self] at hfull
          exact hfull rfl
      have hstep : consumerStep b (ws, bt) r = (ws, bt ++ [r]) := by
        simp only [consumerStep]
        rw [if_neg hfull]
      rw [hstep]
      obtain ⟨h1, h2, h3⟩ := ih ws (bt ++ [r]) hlt hws
      refine ⟨?_, h2, h3⟩
      rw [h1]
      simp

/-- C6: every record is written exactly once, in order: automatic flushes
are exactly the full batches (one each time the accumulated count reaches
a multiple of the batch size, so floor(M/b) of them), the final flush
after the sentinel writes the remaining M mod b records when non-zero,
and the concatenation of all writes is the record stream itself.  Embeds
the consumer of height_database (src/main.py lines 413-432); the consumer
of extract_by_year (src/roofhelper/kadaster/bag.py lines 173-191) is the
same batching loop. -/
theorem C6_consumer_batching {R : Type} (records : List R) (b : ℕ)
    (hb : 0 < b) :
    ((heightDatabaseConsumer records b).flatten = records) ∧
      ((consumerLoop records b).1.length = records.length / b) ∧
      (∀ w ∈ (consumerLoop records b).1, w.length = b) ∧
      ((consumerLoop records b).2.length = records.length % b) := by
  obtain ⟨h1, h2, h3⟩ := consumerLoop_inv b hb records [] [] (by simpa using hb)
    (by simp)
  have hflat : (consumerLoop records b).1.flatten ++ (consumerLoop records b).2 =
      records := by
    rw [consumerLoop]
    simpa using h1
  have hlenflat : ((consumerLoop records b).1.flatten).length =
      b * (consumerLoop records b).1.length := by
    rw [List.length_flatten]
    have : List.map List.length (consumerLoop records b).1 =
        List.map (fun _ => b) (consumerLoop records b).1 :=
      List.map_congr_left (by
        intro w hw
        rw [consumerLoop] at hw
        exact h2 w hw)
    rw [this, sum_map_const_nat]
  have hM : records.length =
      b * (consumerLoop records b).1.length + (consumerLoop records b).2.length := by
    have hc := congrArg List.length hflat
    rw [List.length_append, hlenflat] at hc
    omega
  have hrem : (consumerLoop records b).2.length < b := by
    rw [consumerLoop]
    exact h3
  have hdiv : records.length / b = (consumerLoop records b).1.length := by
    rw [hM, Nat.mul_add_div hb, Nat.div_eq_of_lt hrem]
    omega
  have hmod : records.length % b = (consumerLoop records b).2.length := by
    rw [hM, Nat.mul_add_mod]
    exact Nat.mod_eq_of_lt hrem
  refine ⟨?_, hdiv.symm, ?_, hmod.symm⟩
  · rw [heightDatabaseConsumer]
    by_cases hz : 0 < (consumerLoop records b).2.length
    · rw [if_pos hz]
      rw [List.flatten_append]
      simpa using hflat
    · rw [if_neg hz]
      have hempty : (consumerLoop records b).2 = [] := by
        cases hcm : (consumerLoop records b).2 with
        | nil => rfl
        | cons x xs => rw [hcm] at hz; simp at hz
      rw [hempty] at hflat
      simpa using hflat
  · intro w hw
    rw [consumerLoop] at hw
    exact h2 w hw

/-- C6 witness: ten records with batch size four give two automatic
flushes of four and a final flush of two; total written is ten. -/
theorem C6_consumer_batching_witness :
    ((heightDatabaseConsumer (List.range 10) 4).flatten = List.range 10) ∧
      ((consumerLoop (List.range 10) 4).1.length = (List.range 10).length / 4) ∧
      (∀ w ∈ (consumerLoop (List.range 10) 4).1, w.length = 4) ∧
      ((consumerLoop (List.range 10) 4).2.length = (List.range 10).length % 4) :=
  C6_consumer_batching (List.range 10) 4 (by decide)

/-! ## String and path helpers

Python str, pathlib.Path and os.path.join are modelled on character
lists with structural recursion, so that every function reduces in the
kernel. -/

/-- Split a character list on a separator character (Python str.split). -/
def splitOnChar (c : Char) : List Char → List (List Char)
  | [] => [[]]
  | x :: xs =>
    match splitOnChar c xs with
    | [] => [[x]]
    | p :: ps => if x = c then [] :: p :: ps else (x :: p) :: ps

/-- Join character lists with a separator (Python sep.join). -/
def intercalateChar (c : Char) : List (List Char) → List Char
  | [] => []
  | [p] => p
  | p :: q :: rest => p ++ c :: intercalateChar c (q :: rest)

/-- Does the string denote an absolute POSIX path? -/
def isAbsPath (s : List Char) : Bool := s.head? == some '/'

/-- pathlib keeps exactly two leading slashes as a special root; three or
more collapse to one. -/
def isDoubleSlashRoot (s : List Char) : Bool :=
  (s.take 2 == ['/', '/']) && !(s.take 3 == ['/', '/', '/'])

/-- Path components after pathlib normalization: empty pieces (duplicate
slashes, trailing slash) and single dots are dropped, anything else, in
particular "..", is kept. -/
def pathComponents (s : List Char) : List (List Char) :=
  (splitOnChar '/' s).filter (fun p => !(p == []) && !(p == ['.']))

/-- str(pathlib.PurePosixPath(s)): root prefix plus the surviving
components joined by single slashes; the empty relative path prints as
".". -/
def pyPathStr (s : List Char) : List Char :=
  match pathComponents s with
  | [] =>
    if isAbsPath s then (if isDoubleSlashRoot s then ['/', '/'] else ['/'])
    else ['.']
  | p :: ps =>
    (if isAbsPath s then (if isDoubleSlashRoot s then ['/', '/'] else ['/'])
      else []) ++ intercalateChar '/' (p :: ps)

/-- os.path.join(a, b) for one relative or absolute b (POSIX rules). -/
def osPathJoin (a b : List Char) : List Char :=
  if isAbsPath b then b
  else if a = [] then b
  else if a.getLast? = some '/' then a ++ b
  else a ++ '/' :: b

namespace FileSchemeFileHandler

/-- Characters of a file URI after the "file://" prefix. -/
def fileUriRest (uri : String) : List Char := uri.data.drop 7

/-- urlparse netloc of a file URI: the text between "file://" and the
next slash. -/
def fileUriNetloc (uri : String) : List Char :=
  (fileUriRest uri).takeWhile (fun c => !(c == '/'))

/-- urlparse path of a file URI: the remainder from the first slash. -/
def fileUriPath (uri : String) : List Char :=
  (fileUriRest uri).dropWhile (fun c => !(c == '/'))

/-- _get_local_path (src/roofhelper/io/FileSchemeFileHandler.py lines
16-24) without the optional filename argument, which navigate never
passes: str(Path(netloc + path)); the single-argument os.path.join is the
identity. -/
def getLocalPath (uri : String) : List Char :=
  if fileUriPath uri = [] then pyPathStr (fileUriNetloc uri)
  else pyPathStr (fileUriNetloc uri ++ fileUriPath uri)

/-- navigate (src/roofhelper/io/FileSchemeFileHandler.py lines 139-153):
empty relative path returns the base path; otherwise all leading slashes
of the relative path are stripped and the result is joined onto the base
path with os.path.join, with no further normalization. -/
def navigate (uri path : String) : String :=
  let current := getLocalPath uri
  if path = "" then String.mk ("file://".data ++ current)
  else
    let p := if path.data.head? = some '/' then
        path.data.dropWhile (fun c => c == '/')
      else path.data
    String.mk ("file://".data ++ osPathJoin current p)

end FileSchemeFileHandler

namespace AzureSchemeFileHandler

/-- Result of _parse_azure_uri
(src/roofhelper/io/AzureSchemeFileHandler.py lines 23-52). -/
structure AzureUriParts where
  scheme : List Char
  netloc : List Char
  account : List Char
  container : List Char
  pathPrefix : List Char
  sasToken : List Char
deriving DecidableEq

/-- Scheme of the inner SAS url: the text before the first colon. -/
def azScheme (s : List Char) : List Char := s.takeWhile (fun c => !(c == ':'))

/-- Characters after "scheme://" of the inner SAS url. -/
def azAfterScheme (s : List Char) : List Char :=
  (s.dropWhile (fun c => !(c == ':'))).drop 3

/-- urlparse netloc of the inner SAS url. -/
def azNetloc (s : List Char) : List Char :=
  (azAfterScheme s).takeWhile (fun c => !(c == '/'))

/-- urlparse path of the inner SAS url (up to the query separator). -/
def azPath (s : List Char) : List Char :=
  ((azAfterScheme s).dropWhile (fun c => !(c == '/'))).takeWhile
    (fun c => !(c == '?'))

/-- urlparse query of the inner SAS url. -/
def azQuery (s : List Char) : List Char :=
  (((azAfterScheme s).dropWhile (fun c => !(c == '/'))).dropWhile
    (fun c => !(c == '?'))).drop 1

/-- Azurite (local emulator) is recognized by its localhost netloc. -/
def isLocalEmulator (netloc : List Char) : Bool :=
  List.isPrefixOf "localhost".data netloc ||
    List.isPrefixOf "127.0.0.1".data netloc

/-- _parse_azure_uri (src/roofhelper/io/AzureSchemeFileHandler.py lines
23-52): strip "azure://", urlparse the SAS url, then read account,
container and path prefix either from the path (Azurite) or from the
netloc and path (real Azure storage). -/
def parseAzureUri (uri : String) : AzureUriParts :=
  let sasUri := uri.data.drop 8
  let scheme := azScheme sasUri
  let netloc := azNetloc sasUri
  let pathParts := splitOnChar '/' (azPath sasUri)
  if isLocalEmulator netloc then
    { scheme := scheme, netloc := netloc,
      account := (pathParts.drop 1).headD [],
      container := (pathParts.drop 2).headD [],
      pathPrefix := intercalateChar '/' (pathParts.drop 3),
      sasToken := azQuery sasUri }
  else
    { scheme := scheme, netloc := netloc,
      account := (splitOnChar '.' netloc).headD [],
      container := (pathParts.drop 1).headD [],
      pathPrefix := intercalateChar '/' (pathParts.drop 2),
      sasToken := azQuery sasUri }

/-- _make_blob_url (src/roofhelper/io/AzureSchemeFileHandler.py lines
66-76). -/
def makeBlobUrl (p : AzureUriParts) (blobPath : List Char) : List Char :=
  if isLocalEmulator p.netloc then
    p.scheme ++ "://".data ++ p.netloc ++ '/' :: p.account ++ '/' ::
      p.container ++ '/' :: blobPath ++ '?' :: p.sasToken
  else
    p.scheme ++ "://".data ++ p.netloc ++ '/' :: p.container ++ '/' ::
      blobPath ++ '?' :: p.sasToken

/-- navigate (src/roofhelper/io/AzureSchemeFileHandler.py lines 234-248):
combine the current path prefix and the relative path with exactly one
connecting slash when the prefix is non-empty and has none, otherwise
plain concatenation; the relative path itself is appended verbatim. -/
def navigate (uri path : String) : String :=
  let p := parseAzureUri uri
  let current := p.pathPrefix
  let combined :=
    if current ≠ [] ∧ ¬ current.getLast? = some '/' then
      current ++ '/' :: path.data
    else if current ≠ [] then current ++ path.data
    else path.data
  String.mk ("azure://".data ++ makeBlobUrl p combined)

end AzureSchemeFileHandler

/-! ### Navigate: relative composition (C4) -/

theorem isAbsPath_eq_false {l : List Char} (h : ¬ l.head? = some '/') :
    isAbsPath l = false := by
  rw [isAbsPath, beq_eq_false_iff_ne]
  exact h

/-- C4 counterexample: the azure backend does not strip a leading slash
from the relative argument (src/roofhelper/io/AzureSchemeFileHandler.py
lines 234-248 concatenate the path verbatim), so navigating with
"/c/d.txt" differs from navigating with "c/d.txt", contradicting the
claim that every backend strips a leading slash. -/
theorem C4_navigate_counterexample :
    AzureSchemeFileHandler.navigate
        "azure://https://acct.blob.core.windows.net/cont/a/b?sig=abc"
        "/c/d.txt" ≠
      AzureSchemeFileHandler.navigate
        "azure://https://acct.blob.core.windows.net/cont/a/b?sig=abc"
        "c/d.txt" ∧
    AzureSchemeFileHandler.navigate
        "azure://https://acct.blob.core.windows.net/cont/a/b?sig=abc"
        "/c/d.txt" =
      "azure://https://acct.blob.core.windows.net/cont/a/b//c/d.txt?sig=abc" ∧
    AzureSchemeFileHandler.navigate
        "azure://https://acct.blob.core.windows.net/cont/a/b?sig=abc"
        "c/d.txt" =
      "azure://https://acct.blob.core.windows.net/cont/a/b/c/d.txt?sig=abc" := by
  refine ⟨?_, ?_, ?_⟩ <;> decide

/-- C4 amended: navigate is relative composition only.  The file backend
appends the relative path to the URI path component, strips leading
slashes, and keeps ".." segments uninterpreted; the spec examples hold.
The azure backend also only appends (the result path always extends the
current prefix, so the root is never escaped), but it does not strip a
leading slash: a leading slash survives as an empty path segment (see the
counterexample). -/
theorem C4_navigate_amended :
    (FileSchemeFileHandler.navigate "file:///a/b" "c/d.txt" =
        "file:///a/b/c/d.txt") ∧
    (FileSchemeFileHandler.navigate "file:///a/b" "/c/d.txt" =
        "file:///a/b/c/d.txt") ∧
    (FileSchemeFileHandler.navigate "file:///a/b" "../c" =
        "file:///a/b/../c") ∧
    (∀ uri rel : String, rel ≠ "" →
      FileSchemeFileHandler.navigate uri ("/" ++ rel) =
        FileSchemeFileHandler.navigate uri rel) ∧
    (∀ uri rel : String, rel ≠ "" → ¬ rel.data.head? = some '/' →
      ¬ FileSchemeFileHandler.getLocalPath uri = [] →
      ¬ (FileSchemeFileHandler.getLocalPath uri).getLast? = some '/' →
      FileSchemeFileHandler.navigate uri rel =
        String.mk ("file://".data ++ FileSchemeFileHandler.getLocalPath uri ++
          '/' :: rel.data)) ∧
    (∀ uri rel : String,
      ¬ (AzureSchemeFileHandler.parseAzureUri uri).pathPrefix = [] →
      ¬ ((AzureSchemeFileHandler.parseAzureUri uri).pathPrefix).getLast? =
          some '/' →
      AzureSchemeFileHandler.navigate uri rel =
        String.mk ("azure://".data ++
          AzureSchemeFileHandler.makeBlobUrl
            (AzureSchemeFileHandler.parseAzureUri uri)
            ((AzureSchemeFileHandler.parseAzureUri uri).pathPrefix ++
              '/' :: rel.data))) := by
  refine ⟨by decide, by decide, by decide, ?_, ?_, ?_⟩
  · intro uri rel hrel
    have hdata : ("/" ++ rel).data = '/' :: rel.data := rfl
    have hne : ¬ ("/" ++ rel) = "" := by
      intro h
      have := congrArg String.data h
      rw [hdata] at this
      simp at this
    simp only [FileSchemeFileHandler.navigate]
    rw [if_neg hne, if_neg hrel, hdata]
    have hhead : ('/' :: rel.data).head? = some '/' := rfl
    rw [if_pos hhead]
    have hdrop : ('/' :: rel.data).dropWhile (fun c => c == '/') =
        rel.data.dropWhile (fun c => c == '/') := by
      rw [List.dropWhile_cons]
      simp
    rw [hdrop]
    cases hcase : rel.data with
    | nil => simp
    | cons c t =>
      by_cases hc : c = '/'
      · subst hc
        simp
      · rw [if_neg (by simp [hc]), List.dropWhile_cons, if_neg (by simp [hc])]
  · intro uri rel hrel hhead hcur hlast
    simp only [FileSchemeFileHandler.navigate]
    rw [if_neg hrel, if_neg hhead]
    have hjoin : osPathJoin (FileSchemeFileHandler.getLocalPath uri) rel.data =
        FileSchemeFileHandler.getLocalPath uri ++ '/' :: rel.data := by
      rw [osPathJoin, isAbsPath_eq_false hhead]
      rw [if_neg (by simp), if_neg hcur, if_neg hlast]
    rw [hjoin, List.append_assoc]
  · intro uri rel hcur hlast
    simp only [AzureSchemeFileHandler.navigate]
    rw [if_pos ⟨hcur, hlast⟩]

/-- C4 witness: the general clauses of the amended theorem instantiated
at concrete URIs: stripping for the file backend, literal ".." append for
the file backend, and verbatim append for the azure backend. -/
theorem C4_navigate_amended_witness :
    (FileSchemeFileHandler.navigate "file:///a/b" ("/" ++ "c/d.txt") =
      FileSchemeFileHandler.navigate "file:///a/b" "c/d.txt") ∧
    (FileSchemeFileHandler.navigate "file:///a/b" "../c" =
      String.mk ("file://".data ++ FileSchemeFileHandler.getLocalPath "file:///a/b" ++
        '/' :: "../c".data)) ∧
    (AzureSchemeFileHandler.navigate
        "azure://https://acct.blob.core.windows.net/cont/a/b?sig=abc" "c/d.txt" =
      String.mk ("azure://".data ++
        AzureSchemeFileHandler.makeBlobUrl
          (AzureSchemeFileHandler.parseAzureUri
            "azure://https://acct.blob.core.windows.net/cont/a/b?sig=abc")
          ((AzureSchemeFileHandler.parseAzureUri
            "azure://https://acct.blob.core.windows.net/cont/a/b?sig=abc").pathPrefix ++
            '/' :: "c/d.txt".data))) :=
  ⟨C4_navigate_amended.2.2.2.1 "file:///a/b" "c/d.txt" (by decide),
    C4_navigate_amended.2.2.2.2.1 "file:///a/b" "../c" (by decide) (by decide)
      (by decide) (by decide),
    C4_navigate_amended.2.2.2.2.2 _ "c/d.txt" (by decide) (by decide)⟩

/-! ### Scheme dispatch (C9)

Embedding of the SchemeFileHandler facade
(src/roofhelper/io/SchemeFileHandler.py).  Every public operation parses
the URI scheme with urlparse and indexes the scheme_handlers dict; an
unknown scheme raises KeyError at that dict lookup.  The two backends are
abstract operation records (their I/O behavior is irrelevant to the
dispatch claim). -/

/-- Python urlparse scheme: the lowercased text before the first colon
when it is a valid scheme (a letter followed by letters, digits, plus,
minus or dot), otherwise the empty string. -/
def urlparseScheme (uri : String) : String :=
  let before := uri.data.takeWhile (fun c => !(c == ':'))
  let hasColon := !((uri.data.dropWhile (fun c => !(c == ':'))) == [])
  let headIsAlpha := match before.head? with
    | some c => c.isAlpha
    | none => false
  let validTail := before.all (fun c => c.isAlphanum || c == '+' || c == '-' || c == '.')
  if hasColon && headIsAlpha && validTail then
    String.mk (before.map Char.toLower)
  else ""

/-- Python exception raised by a failed dict lookup. -/
inductive PyError where
  | keyError (key : String)
deriving DecidableEq

/-- Operation set of a scheme backend
(src/roofhelper/io/AbstractSchemeFileHandler.py), restricted to the
operations the facade exposes; result types are abstract. -/
structure SchemeBackend (δ ε π : Type) where
  download_file : String → Option String → δ
  list_entries_shallow : String → String → π
  upload_file_directory : String → String → Option String → ε
  navigate : String → String → String
  file_exists : String → Bool
  get_bytes : String → List ℕ
  upload_folder : String → String → ε
  get_file_size : String → ℤ

/-- The scheme_handlers dict of SchemeFileHandler.__init__
(src/roofhelper/io/SchemeFileHandler.py lines 16-22): azure and file are
the only keys. -/
def schemeHandlers {δ ε π : Type} (azure file : SchemeBackend δ ε π)
    (scheme : String) : Option (SchemeBackend δ ε π) :=
  if scheme = "azure" then some azure
  else if scheme = "file" then some file
  else none

/-- Shared dispatch pattern of every facade method:
scheme_handlers[urlparse(uri).scheme], raising KeyError when absent. -/
def dispatchScheme {δ ε π : Type} (azure file : SchemeBackend δ ε π)
    (uri : String) : Except PyError (SchemeBackend δ ε π) :=
  match schemeHandlers azure file (urlparseScheme uri) with
  | some h => .ok h
  | none => .error (.keyError (urlparseScheme uri))

namespace SchemeFileHandler

variable {δ ε π : Type}

/-- download_file (src/roofhelper/io/SchemeFileHandler.py lines 24-28). -/
def download_file (azure file : SchemeBackend δ ε π) (uri : String)
    (f : Option String) : Except PyError δ :=
  (dispatchScheme azure file uri).map (fun h => h.download_file uri f)

/-- list_entries_shallow (SchemeFileHandler.py lines 30-32). -/
def list_entries_shallow (azure file : SchemeBackend δ ε π) (uri regex : String) :
    Except PyError π :=
  (dispatchScheme azure file uri).map (fun h => h.list_entries_shallow uri regex)

/-- upload_file_directory (SchemeFileHandler.py lines 38-40). -/
def upload_file_directory (azure file : SchemeBackend δ ε π) (f : String)
    (uri : String) (filename : Option String) : Except PyError ε :=
  (dispatchScheme azure file uri).map (fun h => h.upload_file_directory f uri filename)

/-- navigate (SchemeFileHandler.py lines 106-113). -/
def navigate (azure file : SchemeBackend δ ε π) (uri path : String) :
    Except PyError String :=
  (dispatchScheme azure file uri).map (fun h => h.navigate uri path)

/-- file_exists (SchemeFileHandler.py lines 115-121). -/
def file_exists (azure file : SchemeBackend δ ε π) (uri : String) :
    Except PyError Bool :=
  (dispatchScheme azure file uri).map (fun h => h.file_exists uri)

/-- get_bytes (SchemeFileHandler.py lines 54-56). -/
def get_bytes (azure file : SchemeBackend δ ε π) (uri : String) :
    Except PyError (List ℕ) :=
  (dispatchScheme azure file uri).map (fun h => h.get_bytes uri)

/-- upload_folder (SchemeFileHandler.py lines 123-125). -/
def upload_folder (azure file : SchemeBackend δ ε π) (folder uri : String) :
    Except PyError ε :=
  (dispatchScheme azure file uri).map (fun h => h.upload_folder folder uri)

/-- get_file_size (SchemeFileHandler.py lines 127-133). -/
def get_file_size (azure file : SchemeBackend δ ε π) (uri : String) :
    Except PyError ℤ :=
  (dispatchScheme azure file uri).map (fun h => h.get_file_size uri)

end SchemeFileHandler

/-- C9: for every URI whose scheme is neither "file" nor "azure", every
public operation of the storage facade raises KeyError at the
scheme_handlers dict lookup, for arbitrary backend implementations: no
operation silently falls back to a default backend. -/
theorem C9_unknown_scheme_raises {δ ε π : Type}
    (azure file : SchemeBackend δ ε π) (uri : String)
    (h1 : ¬ urlparseScheme uri = "azure") (h2 : ¬ urlparseScheme uri = "file") :
    SchemeFileHandler.download_file azure file uri none =
        .error (.keyError (urlparseScheme uri)) ∧
      SchemeFileHandler.list_entries_shallow azure file uri "" =
        .error (.keyError (urlparseScheme uri)) ∧
      SchemeFileHandler.upload_file_directory azure file "f" uri none =
        .error (.keyError (urlparseScheme uri)) ∧
      SchemeFileHandler.navigate azure file uri "p" =
        .error (.keyError (urlparseScheme uri)) ∧
      SchemeFileHandler.file_exists azure file uri =
        .error (.keyError (urlparseScheme uri)) ∧
      SchemeFileHandler.get_bytes azure file uri =
        .error (.keyError (urlparseScheme uri)) ∧
      SchemeFileHandler.upload_folder azure file "f" uri =
        .error (.keyError (urlparseScheme uri)) ∧
      SchemeFileHandler.get_file_size azure file uri =
        .error (.keyError (urlparseScheme uri)) := by
  have hdisp : dispatchScheme azure file uri =
      .error (.keyError (urlparseScheme uri)) := by
    rw [dispatchScheme, schemeHandlers, if_neg h1, if_neg h2]
  refine ⟨?_, ?_, ?_, ?_, ?_, ?_, ?_, ?_⟩ <;>
    simp [SchemeFileHandler.download_file, SchemeFileHandler.list_entries_shallow,
      SchemeFileHandler.upload_file_directory, SchemeFileHandler.navigate,
      SchemeFileHandler.file_exists, SchemeFileHandler.get_bytes,
      SchemeFileHandler.upload_folder, SchemeFileHandler.get_file_size, hdisp,
      Except.map]

/-- Trivial backend used to instantiate the dispatch witness. -/
def unitBackend : SchemeBackend Unit Unit Unit where
  download_file := fun _ _ => ()
  list_entries_shallow := fun _ _ => ()
  upload_file_directory := fun _ _ _ => ()
  navigate := fun _ _ => ""
  file_exists := fun _ => false
  get_bytes := fun _ => []
  upload_folder := fun _ _ => ()
  get_file_size := fun _ => 0

/-- C9 witness: an http URI is dispatched by neither backend and every
operation reports the KeyError for scheme "http". -/
theorem C9_unknown_scheme_raises_witness :
    SchemeFileHandler.download_file unitBackend unitBackend "http://host/x" none =
        .error (.keyError (urlparseScheme "http://host/x")) ∧
      SchemeFileHandler.list_entries_shallow unitBackend unitBackend
          "http://host/x" "" =
        .error (.keyError (urlparseScheme "http://host/x")) ∧
      SchemeFileHandler.upload_file_directory unitBackend unitBackend "f"
          "http://host/x" none =
        .error (.keyError (urlparseScheme "http://host/x")) ∧
      SchemeFileHandler.navigate unitBackend unitBackend "http://host/x" "p" =
        .error (.keyError (urlparseScheme "http://host/x")) ∧
      SchemeFileHandler.file_exists unitBackend unitBackend "http://host/x" =
        .error (.keyError (urlparseScheme "http://host/x")) ∧
      SchemeFileHandler.get_bytes unitBackend unitBackend "http://host/x" =
        .error (.keyError (urlparseScheme "http://host/x")) ∧
      SchemeFileHandler.upload_folder unitBackend unitBackend "f" "http://host/x" =
        .error (.keyError (urlparseScheme "http://host/x")) ∧
      SchemeFileHandler.get_file_size unitBackend unitBackend "http://host/x" =
        .error (.keyError (urlparseScheme "http://host/x")) :=
  C9_unknown_scheme_raises unitBackend unitBackend "http://host/x"
    (by decide) (by decide)

/-! ### Empty relative path is identity up to normalization (C10) -/

theorem splitOnChar_ne_nil (c : Char) : ∀ s : List Char, splitOnChar c s ≠ [] := by
  intro s
  induction s with
  | nil => simp [splitOnChar]
  | cons x xs ih =>
    rw [splitOnChar]
    cases h : splitOnChar c xs with
    | nil => simp
    | cons p ps =>
      by_cases hx : x = c <;> simp [hx]

theorem splitOnChar_cons_sep (c : Char) (t : List Char) :
    splitOnChar c (c :: t) = [] :: splitOnChar c t := by
  rw [splitOnChar]
  cases h : splitOnChar c t with
  | nil => exact absurd h (splitOnChar_ne_nil c t)
  | cons p ps => simp

theorem splitOnChar_cons_ne (c d : Char) (hd : ¬ d = c) (t : List Char) :
    splitOnChar c (d :: t) =
      (d :: (splitOnChar c t).headD []) :: (splitOnChar c t).tail := by
  rw [splitOnChar]
  cases h : splitOnChar c t with
  | nil => exact absurd h (splitOnChar_ne_nil c t)
  | cons p ps => simp [hd]

theorem splitOnChar_no_sep (c : Char) :
    ∀ s : List Char, c ∉ s → splitOnChar c s = [s] := by
  intro s
  induction s with
  | nil => intro _; rfl
  | cons x xs ih =>
    intro hmem
    have hx : ¬ x = c := by
      intro h
      exact hmem (h ▸ List.mem_cons_self x xs)
    have hxs : c ∉ xs := fun h => hmem (List.mem_cons_of_mem _ h)
    rw [splitOnChar_cons_ne c x hx, ih hxs]
    rfl

theorem splitOnChar_append_no_sep (c : Char) :
    ∀ (p t : List Char), c ∉ p →
      splitOnChar c (p ++ c :: t) = p :: splitOnChar c t := by
  intro p
  induction p with
  | nil =>
    intro t _
    rw [List.nil_append, splitOnChar_cons_sep]
  | cons d p2 ih =>
    intro t hmem
    have hd : ¬ d = c := by
      intro h
      exact hmem (h ▸ List.mem_cons_self d p2)
    have hp2 : c ∉ p2 := fun h => hmem (List.mem_cons_of_mem _ h)
    rw [List.cons_append, splitOnChar_cons_ne c d hd, ih t hp2]
    rfl

theorem mem_splitOnChar_no_sep (c : Char) :
    ∀ (s : List Char) (q : List Char), q ∈ splitOnChar c s → c ∉ q := by
  intro s
  induction s with
  | nil =>
    intro q hq
    simp [splitOnChar] at hq
    simp [hq]
  | cons x xs ih =>
    intro q hq
    by_cases hx : x = c
    · subst hx
      rw [splitOnChar_cons_sep] at hq
      rcases List.mem_cons.mp hq with h | h
      · simp [h]
      · exact ih q h
    · rw [splitOnChar_cons_ne c x hx] at hq
      rcases List.mem_cons.mp hq with h | h
      · subst h
        intro hmem
        rcases List.mem_cons.mp hmem with h2 | h2
        · exact hx h2.symm
        · cases hsplit : splitOnChar c xs with
          | nil => exact absurd hsplit (splitOnChar_ne_nil c xs)
          | cons p ps =>
            rw [hsplit] at h2
            exact ih p (hsplit ▸ List.mem_cons_self p ps) (by simpa using h2)
      · cases hsplit : splitOnChar c xs with
        | nil => exact absurd hsplit (splitOnChar_ne_nil c xs)
        | cons p ps =>
          rw [hsplit] at h
          exact ih q (hsplit ▸ List.mem_cons_of_mem p (by simpa using h))

theorem splitOnChar_intercalate (c : Char) :
    ∀ ps : List (List Char), ps ≠ [] → (∀ p ∈ ps, c ∉ p) →
      splitOnChar c (intercalateChar c ps) = ps := by
  intro ps
  induction ps with
  | nil => intro h; exact absurd rfl h
  | cons p ps ih =>
    intro _ hall
    cases ps with
    | nil =>
      rw [intercalateChar, splitOnChar_no_sep c p (hall p (List.mem_cons_self _ _))]
    | cons q rest =>
      rw [intercalateChar, splitOnChar_append_no_sep c p _
        (hall p (List.mem_cons_self _ _))]
      rw [ih (by simp) (fun r hr => hall r (List.mem_cons_of_mem _ hr))]

theorem intercalateChar_ne_nil (c : Char) (p : List Char) (ps : List (List Char))
    (hp : ¬ p = []) : ¬ intercalateChar c (p :: ps) = [] := by
  cases ps with
  | nil => simpa [intercalateChar] using hp
  | cons q rest =>
    rw [intercalateChar]
    intro h
    cases p with
    | nil => exact hp rfl
    | cons d t => simp at h

theorem mem_of_getLast?_eq {α : Type} :
    ∀ {l : List α} {a : α}, l.getLast? = some a → a ∈ l := by
  intro l
  induction l with
  | nil => intro a h; simp at h
  | cons x xs ih =>
    intro a h
    rw [List.getLast?_cons] at h
    have ha : a = xs.getLast?.getD x := by
      cases h
      rfl
    cases hx : xs.getLast? with
    | none =>
      rw [hx] at ha
      simp at ha
      simp [ha]
    | some b =>
      rw [hx] at ha
      simp at ha
      exact List.mem_cons_of_mem _ (ih (by rw [hx, ha]))

theorem getLast?_intercalate_ne_sep (c : Char) :
    ∀ (ps : List (List Char)), ps ≠ [] → (∀ p ∈ ps, ¬ p = [] ∧ c ∉ p) →
      ∀ d, (intercalateChar c ps).getLast? = some d → ¬ d = c := by
  intro ps
  induction ps with
  | nil => intro h; exact absurd rfl h
  | cons p ps ih =>
    intro _ hall d hd
    cases ps with
    | nil =>
      rw [intercalateChar] at hd
      intro hdc
      exact (hall p (List.mem_cons_self _ _)).2
        (hdc ▸ mem_of_getLast?_eq hd)
    | cons q rest =>
      rw [intercalateChar] at hd
      have hq : ¬ q = [] := (hall q (List.mem_cons_of_mem _ (List.mem_cons_self _ _))).1
      have hnn : ¬ intercalateChar c (q :: rest) = [] :=
        intercalateChar_ne_nil c q rest hq
      rw [List.getLast?_append_of_ne_nil _ (by simp),
        List.getLast?_cons] at hd
      cases hx : (intercalateChar c (q :: rest)).getLast? with
      | none =>
        rw [hx] at hd
        simp at hd
        exact absurd hd.symm (by
          intro h
          exact hnn (by
            cases hg : intercalateChar c (q :: rest) with
            | nil => rfl
            | cons y ys => rw [hg] at hx; simp [List.getLast?_cons] at hx))
      | some b =>
        rw [hx] at hd
        simp at hd
        subst hd
        exact ih (by simp) (fun r hr => hall r (List.mem_cons_of_mem _ hr)) b hx

theorem pathComponents_props (s : List Char) :
    ∀ q ∈ pathComponents s, ¬ q = [] ∧ ¬ q = ['.'] ∧ '/' ∉ q := by
  intro q hq
  rw [pathComponents, List.mem_filter] at hq
  obtain ⟨hmem, hcond⟩ := hq
  have hno := mem_splitOnChar_no_sep '/' s q hmem
  simp only [Bool.and_eq_true, Bool.not_eq_eq_eq_not, Bool.not_true,
    beq_eq_false_iff_ne, ne_eq] at hcond
  exact ⟨hcond.1, hcond.2, hno⟩

theorem pathComponents_intercalate (comps : List (List Char))
    (hne : comps ≠ [])
    (hgood : ∀ q ∈ comps, ¬ q = [] ∧ ¬ q = ['.'] ∧ '/' ∉ q) :
    pathComponents (intercalateChar '/' comps) = comps := by
  rw [pathComponents,
    splitOnChar_intercalate '/' comps hne (fun p hp => (hgood p hp).2.2),
    List.filter_eq_self]
  intro q hq
  have h := hgood q hq
  simp [h.1, h.2.1]

theorem pathComponents_cons_slash (s : List Char) :
    pathComponents ('/' :: s) = pathComponents s := by
  rw [pathComponents, pathComponents, splitOnChar_cons_sep, List.filter_cons]
  simp

theorem pathComponents_pyPathStr (s : List Char) :
    pathComponents (pyPathStr s) = pathComponents s := by
  cases hc : pathComponents s with
  | nil =>
    simp only [pyPathStr, hc]
    by_cases habs : isAbsPath s
    · by_cases hdbl : isDoubleSlashRoot s
      · rw [if_pos habs, if_pos hdbl]
        decide
      · rw [if_pos habs, if_neg hdbl]
        decide
    · rw [if_neg habs]
      decide
  | cons p ps =>
    have hgood : ∀ q ∈ p :: ps, ¬ q = [] ∧ ¬ q = ['.'] ∧ '/' ∉ q := by
      intro q hq
      exact pathComponents_props s q (hc ▸ hq)
    simp only [pyPathStr, hc]
    by_cases habs : isAbsPath s
    · by_cases hdbl : isDoubleSlashRoot s
      · rw [if_pos habs, if_pos hdbl]
        show pathComponents ('/' :: '/' :: intercalateChar '/' (p :: ps)) = p :: ps
        rw [pathComponents_cons_slash, pathComponents_cons_slash]
        exact pathComponents_intercalate (p :: ps) (by exact List.cons_ne_nil p ps) hgood
      · rw [if_pos habs, if_neg hdbl]
        show pathComponents ('/' :: intercalateChar '/' (p :: ps)) = p :: ps
        rw [pathComponents_cons_slash]
        exact pathComponents_intercalate (p :: ps) (by exact List.cons_ne_nil p ps) hgood
    · rw [if_neg habs, List.nil_append]
      exact pathComponents_intercalate (p :: ps) (by exact List.cons_ne_nil p ps) hgood

theorem isAbsPath_intercalate_false (p : List Char) (ps : List (List Char))
    (hp : ¬ p = []) (hslash : '/' ∉ p) :
    isAbsPath (intercalateChar '/' (p :: ps)) = false := by
  cases p with
  | nil => exact absurd rfl hp
  | cons d t =>
    have hd : ¬ d = '/' := fun h => hslash (h ▸ List.mem_cons_self d t)
    cases ps with
    | nil =>
      rw [intercalateChar, isAbsPath]
      simp [hd]
    | cons q rest =>
      rw [intercalateChar, isAbsPath]
      simp [hd]

theorem isAbsPath_pyPathStr (s : List Char) :
    isAbsPath (pyPathStr s) = isAbsPath s := by
  cases hc : pathComponents s with
  | nil =>
    simp only [pyPathStr, hc]
    by_cases habs : isAbsPath s
    · by_cases hdbl : isDoubleSlashRoot s
      · rw [if_pos habs, if_pos hdbl, habs]
        decide
      · rw [if_pos habs, if_neg hdbl, habs]
        decide
    · rw [if_neg habs]
      rw [Bool.not_eq_true] at habs
      rw [habs]
      decide
  | cons p ps =>
    have hgood := pathComponents_props s p (hc ▸ List.mem_cons_self p ps)
    simp only [pyPathStr, hc]
    by_cases habs : isAbsPath s
    · by_cases hdbl : isDoubleSlashRoot s
      · rw [if_pos habs, if_pos hdbl, habs]
        rfl
      · rw [if_pos habs, if_neg hdbl, habs]
        rfl
    · rw [if_neg habs, List.nil_append]
      rw [Bool.not_eq_true] at habs
      rw [habs]
      exact isAbsPath_intercalate_false p ps hgood.1 hgood.2.2

theorem pyPathStr_no_trailing_slash (s : List Char) :
    pyPathStr s = ['/'] ∨ pyPathStr s = ['/', '/'] ∨
      ¬ (pyPathStr s).getLast? = some '/' := by
  cases hc : pathComponents s with
  | nil =>
    simp only [pyPathStr, hc]
    by_cases habs : isAbsPath s
    · by_cases hdbl : isDoubleSlashRoot s
      · rw [if_pos habs, if_pos hdbl]
        right
        left
        rfl
      · rw [if_pos habs, if_neg hdbl]
        left
        rfl
    · rw [if_neg habs]
      right
      right
      decide
  | cons p ps =>
    have hgood : ∀ q ∈ p :: ps, ¬ q = [] ∧ ¬ q = ['.'] ∧ '/' ∉ q := by
      intro q hq
      exact pathComponents_props s q (hc ▸ hq)
    have hnn : ¬ intercalateChar '/' (p :: ps) = [] :=
      intercalateChar_ne_nil '/' p ps (hgood p (List.mem_cons_self p ps)).1
    right
    right
    simp only [pyPathStr, hc]
    rw [List.getLast?_append_of_ne_nil _ hnn]
    intro h
    exact getLast?_intercalate_ne_sep '/' (p :: ps) (List.cons_ne_nil p ps)
      (fun q hq => ⟨(hgood q hq).1, (hgood q hq).2.2⟩) '/' h rfl

/-- C10: navigating with the empty relative path is an identity up to URI
normalization: the result is "file://" followed by the URI local path
(str(Path(...)) of the netloc plus path), which keeps exactly the
original path components (nothing appended), keeps absoluteness, and
carries no trailing slash (the roots "/" and "//" being their own
normal forms).  Embeds navigate of
src/roofhelper/io/FileSchemeFileHandler.py lines 139-153. -/
theorem C10_navigate_empty_identity (uri : String) :
    FileSchemeFileHandler.navigate uri "" =
      String.mk ("file://".data ++ FileSchemeFileHandler.getLocalPath uri) ∧
    pathComponents (FileSchemeFileHandler.getLocalPath uri) =
      pathComponents (FileSchemeFileHandler.fileUriNetloc uri ++
        FileSchemeFileHandler.fileUriPath uri) ∧
    isAbsPath (FileSchemeFileHandler.getLocalPath uri) =
      isAbsPath (FileSchemeFileHandler.fileUriNetloc uri ++
        FileSchemeFileHandler.fileUriPath uri) ∧
    (FileSchemeFileHandler.getLocalPath uri = ['/'] ∨
      FileSchemeFileHandler.getLocalPath uri = ['/', '/'] ∨
      ¬ (FileSchemeFileHandler.getLocalPath uri).getLast? = some '/') := by
  refine ⟨?_, ?_, ?_, ?_⟩
  · simp only [FileSchemeFileHandler.navigate]
    rw [if_pos trivial]
  · rw [FileSchemeFileHandler.getLocalPath]
    by_cases hp : FileSchemeFileHandler.fileUriPath uri = []
    · rw [if_pos hp, hp, List.append_nil]
      exact pathComponents_pyPathStr _
    · rw [if_neg hp]
      exact pathComponents_pyPathStr _
  · rw [FileSchemeFileHandler.getLocalPath]
    by_cases hp : FileSchemeFileHandler.fileUriPath uri = []
    · rw [if_pos hp, hp, List.append_nil]
      exact isAbsPath_pyPathStr _
    · rw [if_neg hp]
      exact isAbsPath_pyPathStr _
  · rw [FileSchemeFileHandler.getLocalPath]
    by_cases hp : FileSchemeFileHandler.fileUriPath uri = []
    · rw [if_pos hp]
      exact pyPathStr_no_trailing_slash _
    · rw [if_neg hp]
      exact pyPathStr_no_trailing_slash _

/-! ## Tile-coordinate filename parser (C8)

Embedding of _parse_tile_coords and FILENAME_RE of src/argo/tyler.py
(lines 22-29).  The regular expression .+_(\d+)_(\d+)\.city\.json$
(re.match, with the end anchor modelled as end of input and \d as the
ASCII digits) admits at most one successful decomposition of a name, so
it is implemented by scanning the name from the right. -/

/-- Decimal value of a digit string (Python int). -/
def digitsVal (ds : List Char) : ℕ :=
  ds.foldl (fun acc c => 10 * acc + (c.toNat - Char.toNat '0')) 0

/-- Match of the core regex .+_(\d+)_(\d+) against the whole of core:
scan the reversed input for the two digit groups and their separating
underscores; returns (prefix, group1, group2). -/
def parseTileCore (core : List Char) : Option (List Char × List Char × List Char) :=
  let r := core.reverse
  let d2r := r.takeWhile Char.isDigit
  let r1 := r.dropWhile Char.isDigit
  if d2r = [] then none
  else if r1.head? = some '_' then
    let r2 := r1.tail
    let d1r := r2.takeWhile Char.isDigit
    let r3 := r2.dropWhile Char.isDigit
    if d1r = [] then none
    else if r3.head? = some '_' then
      if r3.tail = [] then none
      else some (r3.tail.reverse, d1r.reverse, d2r.reverse)
    else none
  else none

/-- _parse_tile_coords (src/argo/tyler.py lines 25-29): names not
matching FILENAME_RE raise ValueError (modelled as the error case of
Except, carrying the formatted message); on a match the two captured
digit groups are converted with int. -/
def parseTileCoords (filename : String) : Except String (ℕ × ℕ) :=
  if (".city.json".data.reverse).isPrefixOf filename.data.reverse then
    match parseTileCore (filename.data.take (filename.data.length - 10)) with
    | some (_, d1, d2) => .ok (digitsVal d1, digitsVal d2)
    | none => .error ("Cannot extract RD New coordinates from \x27" ++
        filename ++ "\x27")
  else
    .error ("Cannot extract RD New coordinates from \x27" ++ filename ++ "\x27")

theorem takeWhile_dropWhile_split {α : Type} {p : α → Bool} :
    ∀ (xs ys : List α), (∀ x ∈ xs, p x = true) →
      (∀ y, ys.head? = some y → ¬ p y = true) →
      (xs ++ ys).takeWhile p = xs ∧ (xs ++ ys).dropWhile p = ys := by
  intro xs
  induction xs with
  | nil =>
    intro ys _ hstop
    cases ys with
    | nil => exact ⟨rfl, rfl⟩
    | cons y t =>
      have hy := hstop y rfl
      rw [List.nil_append, List.takeWhile_cons, List.dropWhile_cons]
      rw [if_neg hy, if_neg hy]
      exact ⟨rfl, rfl⟩
  | cons x xs ih =>
    intro ys hall hstop
    have hx : p x = true := hall x (List.mem_cons_self _ _)
    obtain ⟨h1, h2⟩ := ih ys (fun a ha => hall a (List.mem_cons_of_mem _ ha)) hstop
    rw [List.cons_append, List.takeWhile_cons, List.dropWhile_cons,
      if_pos hx, if_pos hx, h1, h2]
    exact ⟨rfl, rfl⟩

theorem parseTileCore_sound (core pre d1 d2 : List Char)
    (h : parseTileCore core = some (pre, d1, d2)) :
    core = pre ++ '_' :: d1 ++ '_' :: d2 ∧ ¬ pre = [] ∧ ¬ d1 = [] ∧ ¬ d2 = [] ∧
      (∀ c ∈ d1, c.isDigit = true) ∧ (∀ c ∈ d2, c.isDigit = true) := by
  simp only [parseTileCore] at h
  by_cases c1 : core.reverse.takeWhile Char.isDigit = []
  · rw [if_pos c1] at h
    exact absurd h (by simp)
  rw [if_neg c1] at h
  by_cases c2 : (core.reverse.dropWhile Char.isDigit).head? = some '_'
  swap
  · rw [if_neg c2] at h
    exact absurd h (by simp)
  rw [if_pos c2] at h
  by_cases c3 : ((core.reverse.dropWhile Char.isDigit).tail.takeWhile Char.isDigit) = []
  · rw [if_pos c3] at h
    exact absurd h (by simp)
  rw [if_neg c3] at h
  by_cases c4 : ((core.reverse.dropWhile Char.isDigit).tail.dropWhile Char.isDigit).head? = some '_'
  swap
  · rw [if_neg c4] at h
    exact absurd h (by simp)
  rw [if_pos c4] at h
  by_cases c5 : ((core.reverse.dropWhile Char.isDigit).tail.dropWhile Char.isDigit).tail = []
  · rw [if_pos c5] at h
    exact absurd h (by simp)
  rw [if_neg c5, Option.some_inj] at h
  obtain ⟨hpre, hd1, hd2⟩ : pre = ((core.reverse.dropWhile Char.isDigit).tail.dropWhile Char.isDigit).tail.reverse ∧
      d1 = ((core.reverse.dropWhile Char.isDigit).tail.takeWhile Char.isDigit).reverse ∧
      d2 = (core.reverse.takeWhile Char.isDigit).reverse := by
    have h1 := congrArg Prod.fst h
    have h2 := congrArg (fun t => t.2.1) h
    have h3 := congrArg (fun t => t.2.2) h
    exact ⟨h1.symm, h2.symm, h3.symm⟩
  -- reconstruct the reversed core
  have hr1 : core.reverse.takeWhile Char.isDigit ++
      core.reverse.dropWhile Char.isDigit = core.reverse :=
    List.takeWhile_append_dropWhile _ _
  have hcons1 : core.reverse.dropWhile Char.isDigit =
      '_' :: (core.reverse.dropWhile Char.isDigit).tail := by
    cases hx : core.reverse.dropWhile Char.isDigit with
    | nil => rw [hx] at c2; simp at c2
    | cons a t =>
      rw [hx] at c2
      simp at c2
      rw [c2]
      rfl
  have hr2 : ((core.reverse.dropWhile Char.isDigit).tail.takeWhile Char.isDigit) ++
      ((core.reverse.dropWhile Char.isDigit).tail.dropWhile Char.isDigit) =
      (core.reverse.dropWhile Char.isDigit).tail :=
    List.takeWhile_append_dropWhile _ _
  have hcons2 : ((core.reverse.dropWhile Char.isDigit).tail.dropWhile Char.isDigit) =
      '_' :: ((core.reverse.dropWhile Char.isDigit).tail.dropWhile Char.isDigit).tail := by
    cases hx : (core.reverse.dropWhile Char.isDigit).tail.dropWhile Char.isDigit with
    | nil => rw [hx] at c4; simp at c4
    | cons a t =>
      rw [hx] at c4
      simp at c4
      rw [c4]
      rfl
  have hcore : core.reverse =
      (core.reverse.takeWhile Char.isDigit) ++ '_' ::
        (((core.reverse.dropWhile Char.isDigit).tail.takeWhile Char.isDigit) ++ '_' ::
          ((core.reverse.dropWhile Char.isDigit).tail.dropWhile Char.isDigit).tail) := by
    conv_lhs => rw [← hr1, hcons1]
    rw [← hr2]
    conv_lhs => rw [hcons2]
    simp
  refine ⟨?_, ?_, ?_, ?_, ?_, ?_⟩
  · have := congrArg List.reverse hcore
    rw [List.reverse_reverse] at this
    rw [this, hpre, hd1, hd2]
    simp [List.reverse_append]
  · rw [hpre]
    simpa [List.reverse_eq_nil_iff] using c5
  · rw [hd1]
    simpa [List.reverse_eq_nil_iff] using c3
  · rw [hd2]
    simpa [List.reverse_eq_nil_iff] using c1
  · intro c hc
    rw [hd1, List.mem_reverse] at hc
    exact List.mem_takeWhile_imp hc
  · intro c hc
    rw [hd2, List.mem_reverse] at hc
    exact List.mem_takeWhile_imp hc

theorem parseTileCore_complete (pre d1 d2 : List Char)
    (hpre : ¬ pre = []) (h1 : ¬ d1 = []) (h2 : ¬ d2 = [])
    (hd1 : ∀ c ∈ d1, c.isDigit = true) (hd2 : ∀ c ∈ d2, c.isDigit = true) :
    parseTileCore (pre ++ '_' :: d1 ++ '_' :: d2) = some (pre, d1, d2) := by
  have hrev : (pre ++ '_' :: d1 ++ '_' :: d2).reverse =
      d2.reverse ++ '_' :: (d1.reverse ++ '_' :: pre.reverse) := by
    simp [List.reverse_append]
  have hsplit1 := takeWhile_dropWhile_split (p := Char.isDigit) d2.reverse
    ('_' :: (d1.reverse ++ '_' :: pre.reverse))
    (fun c hc => hd2 c (List.mem_reverse.mp hc))
    (by
      intro y hy
      cases hy
      decide)
  have hsplit2 := takeWhile_dropWhile_split (p := Char.isDigit) d1.reverse
    ('_' :: pre.reverse)
    (fun c hc => hd1 c (List.mem_reverse.mp hc))
    (by
      intro y hy
      cases hy
      decide)
  simp [parseTileCore, hrev, hsplit1.1, hsplit1.2, hsplit2.1, hsplit2.2,
    h1, h2, hpre]

/-- C8: the filename parser returns the two integer coordinates exactly
for the names matching the {prefix}_{x}_{y}.city.json pattern of
FILENAME_RE (prefix non-empty, both coordinate groups non-empty digit
strings, the captured groups being the last two), and reports the
ValueError message for every other name. -/
theorem C8_parse_tile_coords (filename : String) (x y : ℕ) :
    (parseTileCoords filename = .ok (x, y) ↔
      ∃ pre d1 d2 : List Char,
        filename.data = pre ++ '_' :: d1 ++ '_' :: d2 ++ ".city.json".data ∧
        ¬ pre = [] ∧ ¬ d1 = [] ∧ ¬ d2 = [] ∧
        (∀ c ∈ d1, c.isDigit = true) ∧ (∀ c ∈ d2, c.isDigit = true) ∧
        x = digitsVal d1 ∧ y = digitsVal d2) ∧
    ((¬ ∃ pre d1 d2 : List Char,
        filename.data = pre ++ '_' :: d1 ++ '_' :: d2 ++ ".city.json".data ∧
        ¬ pre = [] ∧ ¬ d1 = [] ∧ ¬ d2 = [] ∧
        (∀ c ∈ d1, c.isDigit = true) ∧ (∀ c ∈ d2, c.isDigit = true)) →
      parseTileCoords filename =
        .error ("Cannot extract RD New coordinates from \x27" ++ filename ++
          "\x27")) := by
  have hsufflen : (".city.json".data).length = 10 := rfl
  constructor
  · constructor
    · intro h
      rw [parseTileCoords] at h
      by_cases hsuf : ((".city.json".data.reverse).isPrefixOf
          filename.data.reverse) = true
      swap
      · rw [if_neg hsuf] at h
        exact absurd h (by simp)
      rw [if_pos hsuf] at h
      obtain ⟨t, ht⟩ := List.isPrefixOf_iff_prefix.mp hsuf
      have hdata : filename.data = t.reverse ++ ".city.json".data := by
        have := congrArg List.reverse ht
        rw [List.reverse_append, List.reverse_reverse, List.reverse_reverse] at this
        exact this.symm
      have htake : filename.data.take (filename.data.length - 10) = t.reverse := by
        rw [hdata, List.length_append, hsufflen, List.take_left' (by simp)]
      rw [htake] at h
      cases hcore : parseTileCore t.reverse with
      | none => rw [hcore] at h; exact absurd h (by simp)
      | some triple =>
        obtain ⟨pre, d1, d2⟩ := triple
        rw [hcore] at h
        have hok : x = digitsVal d1 ∧ y = digitsVal d2 := by
          simp at h
          exact ⟨h.1.symm, h.2.symm⟩
        obtain ⟨hshape, hp, h1, h2, hdig1, hdig2⟩ :=
          parseTileCore_sound t.reverse pre d1 d2 hcore
        refine ⟨pre, d1, d2, ?_, hp, h1, h2, hdig1, hdig2, hok.1, hok.2⟩
        rw [hdata, hshape]
    · intro hex
      obtain ⟨pre, d1, d2, hdata, hp, h1, h2, hdig1, hdig2, hx, hy⟩ := hex
      rw [parseTileCoords]
      have hsuf : ((".city.json".data.reverse).isPrefixOf
          filename.data.reverse) = true := by
        rw [List.isPrefixOf_iff_prefix]
        refine ⟨(pre ++ '_' :: d1 ++ '_' :: d2).reverse, ?_⟩
        rw [hdata]
        simp
      rw [if_pos hsuf]
      have htake : filename.data.take (filename.data.length - 10) =
          pre ++ '_' :: d1 ++ '_' :: d2 := by
        have hdata2 : filename.data =
            (pre ++ '_' :: d1 ++ '_' :: d2) ++ ".city.json".data := by
          rw [hdata]
        rw [hdata2, List.length_append, hsufflen, List.take_left' (by simp)]
      rw [htake, parseTileCore_complete pre d1 d2 hp h1 h2 hdig1 hdig2, hx, hy]
  · intro hnone
    rw [parseTileCoords]
    by_cases hsuf : ((".city.json".data.reverse).isPrefixOf
        filename.data.reverse) = true
    swap
    · rw [if_neg hsuf]
    rw [if_pos hsuf]
    obtain ⟨t, ht⟩ := List.isPrefixOf_iff_prefix.mp hsuf
    have hdata : filename.data = t.reverse ++ ".city.json".data := by
      have := congrArg List.reverse ht
      rw [List.reverse_append, List.reverse_reverse, List.reverse_reverse] at this
      exact this.symm
    have htake : filename.data.take (filename.data.length - 10) = t.reverse := by
      rw [hdata, List.length_append, hsufflen, List.take_left' (by simp)]
    rw [htake]
    cases hcore : parseTileCore t.reverse with
    | none => rfl
    | some triple =>
      exfalso
      obtain ⟨pre, d1, d2⟩ := triple
      obtain ⟨hshape, hp, h1, h2, hdig1, hdig2⟩ :=
        parseTileCore_sound t.reverse pre d1 d2 hcore
      exact hnone ⟨pre, d1, d2, by rw [hdata, hshape], hp, h1, h2,
        hdig1, hdig2⟩

/-- C8 witness: a well-formed tile name parses to its last two coordinate
groups, and a name without any underscore is rejected with the ValueError
message. -/
theorem C8_parse_tile_coords_witness :
    parseTileCoords "buildings_2022_1000_2000.city.json" = .ok (1000, 2000) ∧
    parseTileCoords "malformed.city.json" =
      .error ("Cannot extract RD New coordinates from \x27" ++
        "malformed.city.json" ++ "\x27") := by
  constructor
  · exact (C8_parse_tile_coords "buildings_2022_1000_2000.city.json"
      1000 2000).1.mpr
      ⟨"buildings_2022".data, "1000".data, "2000".data, by decide, by decide,
        by decide, by decide, by decide, by decide, by decide, by decide⟩
  · exact (C8_parse_tile_coords "malformed.city.json" 0 0).2 (by
      rintro ⟨pre, d1, d2, heq, hrest⟩
      have hmem : '_' ∈ "malformed.city.json".data := by
        rw [heq]
        simp
      exact absurd hmem (by decide))

/-! ## Local file disposal registry (C7)

Embedding of FileHandle (src/roofhelper/io/FileHandle.py) and
delete_if_not_local (src/roofhelper/io/SchemeFileHandler.py lines
94-104).  pathlib paths are modelled as absoluteness plus components;
Path.resolve makes a path absolute against the working directory and
collapses ".." segments; pathlib equality (the comparison the code uses)
is raw structural equality without resolution.  The filesystem is the
list of resolved component lists of the existing files. -/

structure PyPath where
  absolute : Bool
  comps : List String
deriving DecidableEq

/-- Collapse of ".." during Path.resolve (symlinks not modelled). -/
def resolveComps (acc : List String) : List String → List String
  | [] => acc
  | c :: rest =>
    if c = ".." then resolveComps acc.dropLast rest
    else resolveComps (acc ++ [c]) rest

/-- Path.resolve(): absolute paths resolve from the root, relative paths
against the working directory. -/
def pyResolve (cwd : List String) (p : PyPath) : PyPath :=
  ⟨true, resolveComps [] ((if p.absolute then [] else cwd) ++ p.comps)⟩

/-- FileHandle (src/roofhelper/io/FileHandle.py): local path plus the
must_dispose marker (true for temp downloads, false for caller-owned
files). -/
structure FileHandle where
  path : PyPath
  must_dispose : Bool
deriving DecidableEq

/-- Path.exists(): membership of the resolved path in the filesystem. -/
def pathExists (cwd : List String) (fs : List (List String)) (p : PyPath) : Bool :=
  fs.contains (pyResolve cwd p).comps

/-- delete_if_not_local (src/roofhelper/io/SchemeFileHandler.py lines
94-104): select the registered handles with must_dispose whose path
equals the argument under RAW path equality (handle.path == path, no
resolution), then for each such handle that still exists unlink it and
drop it from the registry.  State is (filesystem, registry). -/
def deleteIfNotLocal (cwd : List String)
    (st : List (List String) × List FileHandle) (p : PyPath) :
    List (List String) × List FileHandle :=
  let toRemove := st.2.filter (fun h => h.must_dispose && h.path == p)
  toRemove.foldl
    (fun acc h =>
      if pathExists cwd acc.1 h.path then
        ((acc.1).erase (pyResolve cwd h.path).comps, (acc.2).erase h)
      else acc)
    st

/-- C7 working directory of the failing scenario. -/
def c7Cwd : List String := ["tmp", "work"]

/-- Registered absolute path of the downloaded temp file. -/
def c7Abs : PyPath := ⟨true, ["tmp", "work", "f.txt"]⟩

/-- Relative alias of the same file (cwd is tmp/work). -/
def c7Rel : PyPath := ⟨false, ["f.txt"]⟩

/-- Dot-dot alias of the same file. -/
def c7Dots : PyPath := ⟨true, ["tmp", "work", "sub", "..", "f.txt"]⟩

/-- Registry holding the one must_dispose handle. -/
def c7Handles : List FileHandle := [⟨c7Abs, true⟩]

/-- Filesystem holding the file. -/
def c7Fs : List (List String) := [["tmp", "work", "f.txt"]]

/-- C7: the code compares handle.path == path without resolving, so the
relative alias and the ".." alias of the registered file (which resolve
to the registered path, which exists) delete nothing, while the very same
call with the raw registered path deletes the file and its registry
entry.  The repository test suite
(src/tests/test_scheme_handler.py, test_delete_if_not_local_absolute_vs_
relative_paths and test_delete_if_not_local_different_absolute_paths_
same_file) requires the aliased calls to delete, so the claim describes
the intended behavior and the code is wrong. -/
theorem C7_dispose_code_divergence :
    pyResolve c7Cwd c7Rel = pyResolve c7Cwd c7Abs ∧
    pyResolve c7Cwd c7Dots = pyResolve c7Cwd c7Abs ∧
    pathExists c7Cwd c7Fs c7Rel = true ∧
    deleteIfNotLocal c7Cwd (c7Fs, c7Handles) c7Rel = (c7Fs, c7Handles) ∧
    deleteIfNotLocal c7Cwd (c7Fs, c7Handles) c7Dots = (c7Fs, c7Handles) ∧
    deleteIfNotLocal c7Cwd (c7Fs, c7Handles) c7Abs = ([], []) := by
  refine ⟨?_, ?_, ?_, ?_, ?_, ?_⟩ <;> decide

/-! ## Exact rational helpers

Python floats are modelled as exact rationals.  The Batteries field
operations on Rat are irreducible, so the embeddings below use
Rat.divInt and integer arithmetic, which reduce in the kernel; the
bridging lemmas identify them with the ordinary field operations, and
Rat.floor with the Mathlib floor. -/

/-- Division of a rational by an integer: v / g. -/
def ratDivInt (q : ℚ) (g : ℤ) : ℚ := Rat.divInt q.num (q.den * g)

/-- Subtraction a - b. -/
def qsub (a b : ℚ) : ℚ :=
  Rat.divInt (a.num * b.den - b.num * a.den) (a.den * b.den)

/-- Multiplication a * b. -/
def qmul (a b : ℚ) : ℚ := Rat.divInt (a.num * b.num) (a.den * b.den)

/-- Addition a + b. -/
def qadd (a b : ℚ) : ℚ :=
  Rat.divInt (a.num * b.den + b.num * a.den) (a.den * b.den)

/-- Division a / b. -/
def qdiv (a b : ℚ) : ℚ := Rat.divInt (a.num * b.den) (a.den * b.num)

/-- Truncation toward zero (Python int(), numpy astype to an integer
type). -/
def ratTrunc (q : ℚ) : ℤ := q.num.tdiv q.den

theorem ratDivInt_eq (q : ℚ) (g : ℤ) : ratDivInt q g = q / (g : ℚ) := by
  rw [ratDivInt, Rat.divInt_eq_div]
  push_cast
  rw [div_mul_eq_div_div]
  rw [Rat.num_div_den]

theorem qsub_eq (a b : ℚ) : qsub a b = a - b := by
  have ha : ((a.den : ℚ)) ≠ 0 := by
    exact_mod_cast a.den_nz
  have hb : ((b.den : ℚ)) ≠ 0 := by
    exact_mod_cast b.den_nz
  rw [qsub, Rat.divInt_eq_div]
  push_cast
  rw [mul_comm ((b.num : ℚ)) ((a.den : ℚ))]
  rw [← div_sub_div _ _ ha hb, Rat.num_div_den, Rat.num_div_den]

theorem qadd_eq (a b : ℚ) : qadd a b = a + b := by
  have ha : ((a.den : ℚ)) ≠ 0 := by
    exact_mod_cast a.den_nz
  have hb : ((b.den : ℚ)) ≠ 0 := by
    exact_mod_cast b.den_nz
  rw [qadd, Rat.divInt_eq_div]
  push_cast
  rw [mul_comm ((b.num : ℚ)) ((a.den : ℚ))]
  rw [← div_add_div _ _ ha hb, Rat.num_div_den, Rat.num_div_den]

theorem qmul_eq (a b : ℚ) : qmul a b = a * b := by
  rw [qmul, Rat.divInt_eq_div]
  push_cast
  rw [← div_mul_div_comm, Rat.num_div_den, Rat.num_div_den]

theorem qdiv_eq (a b : ℚ) : qdiv a b = a / b := by
  rw [qdiv, Rat.divInt_eq_div]
  push_cast
  conv_rhs => rw [← Rat.num_div_den a, ← Rat.num_div_den b]
  rw [div_div_eq_mul_div, div_mul_eq_mul_div, div_div]

theorem ratCeil_eq (q : ℚ) : Rat.ceil q = ⌈q⌉ := by
  rw [Rat.ceil]
  by_cases hd : q.den = 1
  · rw [if_pos hd]
    have hq : q = (q.num : ℚ) := by
      conv_lhs => rw [← Rat.num_div_den q, hd]
      push_cast
      ring
    conv_rhs => rw [hq]
    rw [Int.ceil_intCast]
  · rw [if_neg hd]
    have hfl : q.num / (q.den : ℤ) = ⌊q⌋ := (Rat.floor_def).symm
    rw [hfl]
    have hne : ((⌈q⌉ : ℤ) : ℚ) ≠ q := by
      intro hc
      apply hd
      rw [← hc]
      exact Rat.den_intCast _
    refine le_antisymm ?_ ?_
    · rw [Int.add_one_le_iff, Int.floor_lt]
      exact lt_of_le_of_ne (Int.le_ceil q) (Ne.symm hne)
    · rw [Int.ceil_le]
      push_cast
      exact le_of_lt (Int.lt_floor_add_one q)

theorem ratTrunc_eq_floor (q : ℚ) (h : 0 ≤ q) : ratTrunc q = ⌊q⌋ := by
  have hn : 0 ≤ q.num := Rat.num_nonneg.mpr h
  have hd : (0 : ℤ) ≤ (q.den : ℤ) := Int.ofNat_nonneg _
  rw [ratTrunc, Int.tdiv_eq_ediv hn hd, Rat.floor_def]

/-! ## C1: the grid partitioner (src/src/roofhelper/kadaster/geo.py)

Features are modelled by their centroid points, as exact rationals.  A
cell is the closed/open box produced by shapely box(x, y, x+g, y+g);
gpd.read_file with a bbox returns the features intersecting the closed
box, and Point.within(box) is strict interior membership. -/

/-- Pointwise minimum, mirroring Python min on floats. -/
def minQ (a b : ℚ) : ℚ := if a ≤ b then a else b

/-- Pointwise maximum, mirroring Python max on floats. -/
def maxQ (a b : ℚ) : ℚ := if b ≤ a then a else b

/-- Minimum of a list of coordinates (fiona src.bounds lower corner). -/
def listMinQ : List ℚ → ℚ
  | [] => 0
  | x :: xs => xs.foldl minQ x

/-- Maximum of a list of coordinates (fiona src.bounds upper corner). -/
def listMaxQ : List ℚ → ℚ
  | [] => 0
  | x :: xs => xs.foldl maxQ x

/-- math.floor(v of grid_size) * grid_size. -/
def gridFloorAlign (v : ℚ) (g : ℤ) : ℤ := Rat.floor (ratDivInt v g) * g

/-- math.ceil(v of grid_size) * grid_size. -/
def gridCeilAlign (v : ℚ) (g : ℤ) : ℤ := Rat.ceil (ratDivInt v g) * g

/-- Length of Python range(start, stop, step) for positive step. -/
def pyRangeLen (start stop step : ℤ) : ℕ :=
  ((stop - start + step - 1) / step).toNat

/-- Python range(start, stop, step) as a list, for positive step. -/
def pyRange (start stop step : ℤ) : List ℤ :=
  (List.range (pyRangeLen start stop step)).map
    (fun i : ℕ => start + (i : ℤ) * step)

/-- A grid cell as returned by _process_cell: the float 4-tuple
(x, y, x + grid_size, y + grid_size). -/
structure GridCell where
  minx : ℚ
  miny : ℚ
  maxx : ℚ
  maxy : ℚ
deriving DecidableEq, Repr

/-- shapely box(x, y, x + grid_size, y + grid_size) at an integer corner. -/
def cellBox (x y g : ℤ) : GridCell :=
  ⟨(x : ℚ), (y : ℚ), ((x + g : ℤ) : ℚ), ((y + g : ℤ) : ℚ)⟩

/-- gpd.read_file(filepath, bbox=cell): a point feature is loaded iff it
meets the closed cell box. -/
def bboxIntersects (c : GridCell) (p : ℚ × ℚ) : Bool :=
  decide (c.minx ≤ p.1) && decide (p.1 ≤ c.maxx) &&
    decide (c.miny ≤ p.2) && decide (p.2 ≤ c.maxy)

/-- shapely Point.within(box): strict interior membership. -/
def centroidWithin (c : GridCell) (p : ℚ × ℚ) : Bool :=
  decide (c.minx < p.1) && decide (p.1 < c.maxx) &&
    decide (c.miny < p.2) && decide (p.2 < c.maxy)

/-- geo._process_cell: load by bbox, keep centroids within the cell, and
emit the cell tuple iff any remain. -/
def processCell (pts : List (ℚ × ℚ)) (x y g : ℤ) : Option GridCell :=
  let cell := cellBox x y g
  let footprints := pts.filter (fun p => bboxIntersects cell p)
  let footprintsWithin := footprints.filter (fun p => centroidWithin cell p)
  if 0 < footprintsWithin.length then some cell else none

/-- geo._generate_cells: the x/y double loop over the aligned ranges,
keeping the non-None results. -/
def generateCells (minx maxx miny maxy g : ℤ) (pts : List (ℚ × ℚ)) :
    List GridCell :=
  let tasks :=
    ((pyRange minx maxx g).map
      (fun x => (pyRange miny maxy g).map (fun y => (x, y)))).flatten
  tasks.filterMap (fun xy => processCell pts xy.1 xy.2 g)

/-- geo.grid_create_on_intersecting_centroid: align the data bounds to
the grid and enumerate the cells. -/
def gridCreateOnIntersectingCentroid (pts : List (ℚ × ℚ)) (g : ℤ) :
    List GridCell :=
  let minx := listMinQ (pts.map Prod.fst)
  let miny := listMinQ (pts.map Prod.snd)
  let maxx := listMaxQ (pts.map Prod.fst)
  let maxy := listMaxQ (pts.map Prod.snd)
  generateCells (gridFloorAlign minx g) (gridCeilAlign maxx g)
    (gridFloorAlign miny g) (gridCeilAlign maxy g) g pts

/-- Number of features whose centroid lies strictly inside a cell. -/
def cellCount (pts : List (ℚ × ℚ)) (c : GridCell) : ℕ :=
  (pts.filter (fun p => centroidWithin c p)).length

/-- Two points with distinct coordinates; (0, 5) lies on a grid line. -/
def c1Pts : List (ℚ × ℚ) := [(0, 5), (1000, 5)]

/-- C1: COUNTEREXAMPLE.  The partitioner does not partition the
features: with cell size 2000 and the two points (0, 5) and (1000, 5),
the point (0, 5) lies on the boundary of the only candidate cell, is
inside (within) no emitted cell, and the per-cell contained-centroid
counts sum to 1, not 2. -/
theorem C1_partition_counterexample :
    c1Pts.length = 2 ∧
    ((gridCreateOnIntersectingCentroid c1Pts 2000).map
      (cellCount c1Pts)).sum = 1 ∧
    ((gridCreateOnIntersectingCentroid c1Pts 2000).filter
      (fun c => centroidWithin c (0, 5))).length = 0 := by
  refine ⟨by decide, by decide, by decide⟩

/-- Strict interior membership on one axis for a cell with origin x and
width g. -/
def inAxis (g x : ℤ) (t : ℚ) : Bool :=
  decide ((x : ℚ) < t) && decide (t < ((x + g : ℤ) : ℚ))

theorem gridFloorAlign_eq (v : ℚ) (g : ℤ) :
    gridFloorAlign v g = ⌊v / (g : ℚ)⌋ * g := by
  rw [gridFloorAlign, ratDivInt_eq]
  rfl

theorem gridCeilAlign_eq (v : ℚ) (g : ℤ) :
    gridCeilAlign v g = ⌈v / (g : ℚ)⌉ * g := by
  rw [gridCeilAlign, ratDivInt_eq, ratCeil_eq]

theorem inAxis_iff (g : ℤ) (hg : 0 < g) (t : ℚ)
    (hoff : ∀ k : ℤ, t ≠ ((k * g : ℤ) : ℚ)) (v : ℤ) :
    inAxis g (v * g) t = true ↔ v = ⌊t / (g : ℚ)⌋ := by
  have hgq : (0 : ℚ) < (g : ℚ) := by exact_mod_cast hg
  rw [inAxis, Bool.and_eq_true, decide_eq_true_iff, decide_eq_true_iff]
  constructor
  · rintro ⟨h1, h2⟩
    have hl : (v : ℚ) < t / (g : ℚ) := by
      rw [lt_div_iff hgq]
      push_cast at h1 ⊢
      linarith
    have hr : t / (g : ℚ) < (v : ℚ) + 1 := by
      rw [div_lt_iff hgq]
      push_cast at h2 ⊢
      linarith
    symm
    rw [Int.floor_eq_iff]
    exact ⟨le_of_lt hl, by exact_mod_cast hr⟩
  · rintro rfl
    set w := ⌊t / (g : ℚ)⌋ with hw
    have h1 : (w : ℚ) ≤ t / (g : ℚ) := Int.floor_le _
    have h2 : t / (g : ℚ) < (w : ℚ) + 1 := Int.lt_floor_add_one _
    have hle : ((w * g : ℤ) : ℚ) ≤ t := by
      push_cast
      have := (le_div_iff hgq).mp h1
      linarith
    have hlt2 : t < ((w * g + g : ℤ) : ℚ) := by
      push_cast
      have := (div_lt_iff hgq).mp h2
      linarith
    refine ⟨lt_of_le_of_ne hle ?_, hlt2⟩
    intro hc
    exact hoff w hc.symm

theorem pyRangeLen_aligned (F C g : ℤ) (hg : 0 < g) :
    pyRangeLen (F * g) (C * g) g = (C - F).toNat := by
  rw [pyRangeLen]
  have h1 : C * g - F * g + g - 1 = (g - 1) + (C - F) * g := by ring
  rw [h1, Int.add_mul_ediv_right _ _ (ne_of_gt hg)]
  rw [Int.ediv_eq_zero_of_lt (by omega) (by omega)]
  omega

theorem axis_count (g : ℤ) (hg : 0 < g) (t : ℚ)
    (hoff : ∀ k : ℤ, t ≠ ((k * g : ℤ) : ℚ)) (F C : ℤ)
    (hF : F ≤ ⌊t / (g : ℚ)⌋) (hC : ⌊t / (g : ℚ)⌋ < C) :
    ((pyRange (F * g) (C * g) g).filter (fun x => inAxis g x t)).length = 1 := by
  rw [pyRange, pyRangeLen_aligned F C g hg, List.filter_map, List.length_map,
    ← List.countP_eq_length_filter]
  set w := ⌊t / (g : ℚ)⌋ with hw
  have hkey : ∀ i : ℕ,
      ((fun x => inAxis g x t) ∘ fun i : ℕ => F * g + (i : ℤ) * g) i = true ↔
        (i : ℤ) = w - F := by
    intro i
    show inAxis g (F * g + (i : ℤ) * g) t = true ↔ (i : ℤ) = w - F
    have hx : F * g + (i : ℤ) * g = (F + (i : ℤ)) * g := by ring
    rw [hx, inAxis_iff g hg t hoff (F + (i : ℤ))]
    omega
  apply countP_range_eq_one _ (w - F).toNat
  · rw [hkey]
    omega
  · omega
  · intro i hi hPi
    have := (hkey i).mp hPi
    omega

theorem foldl_minQ_le : ∀ (l : List ℚ) (a : ℚ), l.foldl minQ a ≤ a
  | [], a => le_refl a
  | x :: l, a => by
    rw [List.foldl_cons]
    refine le_trans (foldl_minQ_le l (minQ a x)) ?_
    rw [minQ]
    by_cases h : a ≤ x
    · rw [if_pos h]
    · rw [if_neg h]
      exact le_of_not_le h

theorem foldl_minQ_le_mem : ∀ (l : List ℚ) (a x : ℚ), x ∈ l → l.foldl minQ a ≤ x
  | [], _, x, hx => absurd hx (List.not_mem_nil x)
  | y :: l, a, x, hx => by
    rw [List.foldl_cons]
    rcases List.mem_cons.mp hx with h | h
    · subst h
      refine le_trans (foldl_minQ_le l (minQ a x)) ?_
      rw [minQ]
      by_cases hax : a ≤ x
      · rw [if_pos hax]
        exact hax
      · rw [if_neg hax]
    · exact foldl_minQ_le_mem l (minQ a y) x h

theorem listMinQ_le (l : List ℚ) (x : ℚ) (hx : x ∈ l) : listMinQ l ≤ x := by
  cases l with
  | nil => exact absurd hx (List.not_mem_nil x)
  | cons y l =>
    simp only [listMinQ]
    rcases List.mem_cons.mp hx with h | h
    · subst h
      exact foldl_minQ_le l x
    · exact foldl_minQ_le_mem l y x h

theorem le_foldl_maxQ : ∀ (l : List ℚ) (a : ℚ), a ≤ l.foldl maxQ a
  | [], a => le_refl a
  | x :: l, a => by
    rw [List.foldl_cons]
    refine le_trans ?_ (le_foldl_maxQ l (maxQ a x))
    rw [maxQ]
    by_cases h : x ≤ a
    · rw [if_pos h]
    · rw [if_neg h]
      exact le_of_not_le h

theorem le_foldl_maxQ_mem : ∀ (l : List ℚ) (a x : ℚ), x ∈ l → x ≤ l.foldl maxQ a
  | [], _, x, hx => absurd hx (List.not_mem_nil x)
  | y :: l, a, x, hx => by
    rw [List.foldl_cons]
    rcases List.mem_cons.mp hx with h | h
    · subst h
      refine le_trans ?_ (le_foldl_maxQ l (maxQ a x))
      rw [maxQ]
      by_cases hax : x ≤ a
      · rw [if_pos hax]
        exact hax
      · rw [if_neg hax]
    · exact le_foldl_maxQ_mem l (maxQ a y) x h

theorem le_listMaxQ (l : List ℚ) (x : ℚ) (hx : x ∈ l) : x ≤ listMaxQ l := by
  cases l with
  | nil => exact absurd hx (List.not_mem_nil x)
  | cons y l =>
    simp only [listMaxQ]
    rcases List.mem_cons.mp hx with h | h
    · subst h
      exact le_foldl_maxQ l x
    · exact le_foldl_maxQ_mem l y x h

theorem floor_bounds (g : ℤ) (hg : 0 < g) (lo t hi : ℚ) (hlo : lo ≤ t)
    (hhi : t ≤ hi) (hoff : ∀ k : ℤ, t ≠ ((k * g : ℤ) : ℚ)) :
    ⌊lo / (g : ℚ)⌋ ≤ ⌊t / (g : ℚ)⌋ ∧ ⌊t / (g : ℚ)⌋ < ⌈hi / (g : ℚ)⌉ := by
  have hgq : (0 : ℚ) < (g : ℚ) := by exact_mod_cast hg
  constructor
  · exact Int.floor_mono ((div_le_div_right hgq).mpr hlo)
  · by_contra hcon
    push_neg at hcon
    have h1 : t / (g : ℚ) ≤ hi / (g : ℚ) := (div_le_div_right hgq).mpr hhi
    have h2 : hi / (g : ℚ) ≤ ((⌈hi / (g : ℚ)⌉ : ℤ) : ℚ) := Int.le_ceil _
    have h3 : ((⌊t / (g : ℚ)⌋ : ℤ) : ℚ) ≤ t / (g : ℚ) := Int.floor_le _
    have h4 : ((⌈hi / (g : ℚ)⌉ : ℤ) : ℚ) ≤ ((⌊t / (g : ℚ)⌋ : ℤ) : ℚ) := by
      exact_mod_cast hcon
    have heq : t / (g : ℚ) = ((⌈hi / (g : ℚ)⌉ : ℤ) : ℚ) :=
      le_antisymm (le_trans h1 h2) (le_trans h4 h3)
    apply hoff ⌈hi / (g : ℚ)⌉
    have hmul := (div_eq_iff (ne_of_gt hgq)).mp heq
    push_cast
    linarith

theorem flatten_filter_prod_length (xs ys : List ℤ) (px py : ℤ → Bool) :
    (((xs.map (fun x => ys.map (fun y => (x, y)))).flatten).filter
      (fun xy => px xy.1 && py xy.2)).length =
      (xs.filter px).length * (ys.filter py).length := by
  induction xs with
  | nil => simp
  | cons x xs ih =>
    simp only [List.map_cons, List.flatten_cons, List.filter_append,
      List.length_append, ih]
    rw [List.filter_map, List.length_map]
    have hcomp : ((fun xy : ℤ × ℤ => px xy.1 && py xy.2) ∘ (fun y => (x, y))) =
        (fun y => px x && py y) := rfl
    rw [hcomp, List.filter_cons]
    by_cases hx : px x = true
    · have h1 : (fun y => px x && py y) = py := by
        funext y
        rw [hx, Bool.true_and]
      rw [h1]
      simp only [hx, if_pos]
      rw [List.length_cons]
      ring
    · have hxf : px x = false := by
        simpa using hx
      have h1 : (fun y => px x && py y) = (fun _ => false) := by
        funext y
        rw [hxf, Bool.false_and]
      rw [h1]
      simp [hxf]

theorem within_imp_bbox (c : GridCell) (p : ℚ × ℚ)
    (h : centroidWithin c p = true) : bboxIntersects c p = true := by
  simp only [centroidWithin, Bool.and_eq_true, decide_eq_true_iff] at h
  obtain ⟨⟨⟨h1, h2⟩, h3⟩, h4⟩ := h
  simp only [bboxIntersects, Bool.and_eq_true, decide_eq_true_iff]
  exact ⟨⟨⟨le_of_lt h1, le_of_lt h2⟩, le_of_lt h3⟩, le_of_lt h4⟩

theorem filter_bbox_within (pts : List (ℚ × ℚ)) (c : GridCell) :
    (pts.filter (fun p => bboxIntersects c p)).filter
        (fun p => centroidWithin c p) =
      pts.filter (fun p => centroidWithin c p) := by
  rw [List.filter_filter]
  apply List.filter_congr
  intro p hp
  by_cases h : centroidWithin c p = true
  · rw [h, Bool.true_and]
    exact within_imp_bbox c p h
  · have hf : centroidWithin c p = false := by
      simpa using h
    rw [hf, Bool.false_and]

theorem processCell_eq (pts : List (ℚ × ℚ)) (x y g : ℤ) :
    processCell pts x y g =
      if 0 < cellCount pts (cellBox x y g) then some (cellBox x y g)
      else none := by
  simp only [processCell]
  rw [filter_bbox_within]
  rfl

theorem sum_filterMap_processCell (pts : List (ℚ × ℚ)) (g : ℤ) :
    ∀ cands : List (ℤ × ℤ),
      ((cands.filterMap (fun xy => processCell pts xy.1 xy.2 g)).map
        (cellCount pts)).sum =
      (cands.map (fun xy => cellCount pts (cellBox xy.1 xy.2 g))).sum
  | [] => rfl
  | xy :: rest => by
    have ih := sum_filterMap_processCell pts g rest
    have hpc := processCell_eq pts xy.1 xy.2 g
    by_cases h : 0 < cellCount pts (cellBox xy.1 xy.2 g)
    · rw [if_pos h] at hpc
      rw [@List.filterMap_cons_some (ℤ × ℤ) GridCell
        (fun xy => processCell pts xy.1 xy.2 g) xy rest
        (cellBox xy.1 xy.2 g) hpc, List.map_cons, List.sum_cons,
        List.map_cons, List.sum_cons, ih]
    · rw [if_neg h] at hpc
      rw [@List.filterMap_cons_none (ℤ × ℤ) GridCell
        (fun xy => processCell pts xy.1 xy.2 g) xy rest hpc,
        List.map_cons, List.sum_cons, ih]
      omega

theorem sum_map_one {γ : Type} (l : List γ) (f : γ → ℕ)
    (h : ∀ a ∈ l, f a = 1) : (l.map f).sum = l.length := by
  induction l with
  | nil => rfl
  | cons a l ih =>
    rw [List.map_cons, List.sum_cons, h a (List.mem_cons_self a l),
      ih (fun b hb => h b (List.mem_cons_of_mem a hb)), List.length_cons]
    omega

theorem centroidWithin_cellBox (x y g : ℤ) (p : ℚ × ℚ) :
    centroidWithin (cellBox x y g) p =
      (inAxis g x p.1 && inAxis g y p.2) := by
  simp only [centroidWithin, cellBox, inAxis]
  simp [Bool.and_assoc]

theorem mem_pyRange_aligned (F C g x : ℤ)
    (hx : x ∈ pyRange (F * g) (C * g) g) : ∃ v : ℤ, x = v * g := by
  rw [pyRange, List.mem_map] at hx
  obtain ⟨i, _, hi⟩ := hx
  exact ⟨F + (i : ℤ), by rw [← hi]; ring⟩

theorem mem_generateCells (minx maxx miny maxy g : ℤ) (pts : List (ℚ × ℚ))
    (c : GridCell) (hc : c ∈ generateCells minx maxx miny maxy g pts) :
    ∃ x y : ℤ, x ∈ pyRange minx maxx g ∧ y ∈ pyRange miny maxy g ∧
      c = cellBox x y g ∧ 0 < cellCount pts c := by
  simp only [generateCells, List.mem_filterMap] at hc
  obtain ⟨xy, hmem, hsome⟩ := hc
  obtain ⟨l, hl, hxyl⟩ := List.mem_flatten.mp hmem
  obtain ⟨x, hx, rfl⟩ := List.mem_map.mp hl
  obtain ⟨y, hy, rfl⟩ := List.mem_map.mp hxyl
  rw [processCell_eq] at hsome
  by_cases h : 0 < cellCount pts (cellBox (x, y).1 (x, y).2 g)
  · rw [if_pos h] at hsome
    exact ⟨x, y, hx, hy, (Option.some.inj hsome).symm,
      (Option.some.inj hsome) ▸ h⟩
  · rw [if_neg h] at hsome
    exact Option.noConfusion hsome

theorem generateCells_partition (pts : List (ℚ × ℚ)) (g : ℤ) (hg : 0 < g)
    (FX CX FY CY : ℤ)
    (hoff : ∀ p ∈ pts, (∀ k : ℤ, p.1 ≠ ((k * g : ℤ) : ℚ)) ∧
      (∀ k : ℤ, p.2 ≠ ((k * g : ℤ) : ℚ)))
    (hbnd : ∀ p ∈ pts, FX ≤ ⌊p.1 / (g : ℚ)⌋ ∧ ⌊p.1 / (g : ℚ)⌋ < CX ∧
      FY ≤ ⌊p.2 / (g : ℚ)⌋ ∧ ⌊p.2 / (g : ℚ)⌋ < CY) :
    ((generateCells (FX * g) (CX * g) (FY * g) (CY * g) g pts).map
      (cellCount pts)).sum = pts.length ∧
    (∀ c ∈ generateCells (FX * g) (CX * g) (FY * g) (CY * g) g pts,
      0 < cellCount pts c) ∧
    (∀ c1 ∈ generateCells (FX * g) (CX * g) (FY * g) (CY * g) g pts,
      ∀ c2 ∈ generateCells (FX * g) (CX * g) (FY * g) (CY * g) g pts,
      ∀ p ∈ pts, centroidWithin c1 p = true → centroidWithin c2 p = true →
        c1 = c2) := by
  have hcount : ∀ p ∈ pts,
      ((((pyRange (FX * g) (CX * g) g).map
        (fun x => (pyRange (FY * g) (CY * g) g).map
          (fun y => (x, y)))).flatten).filter
            (fun xy => centroidWithin (cellBox xy.1 xy.2 g) p)).length = 1 := by
    intro p hp
    have hb := hbnd p hp
    have hfilter : ((((pyRange (FX * g) (CX * g) g).map
        (fun x => (pyRange (FY * g) (CY * g) g).map
          (fun y => (x, y)))).flatten).filter
            (fun xy => centroidWithin (cellBox xy.1 xy.2 g) p)) =
        ((((pyRange (FX * g) (CX * g) g).map
          (fun x => (pyRange (FY * g) (CY * g) g).map
            (fun y => (x, y)))).flatten).filter
              (fun xy => inAxis g xy.1 p.1 && inAxis g xy.2 p.2)) := by
      apply List.filter_congr
      intro xy hxy
      exact centroidWithin_cellBox xy.1 xy.2 g p
    have hprod := flatten_filter_prod_length (pyRange (FX * g) (CX * g) g)
      (pyRange (FY * g) (CY * g) g)
      (fun x => inAxis g x p.1) (fun y => inAxis g y p.2)
    rw [axis_count g hg p.1 (hoff p hp).1 FX CX hb.1 hb.2.1,
      axis_count g hg p.2 (hoff p hp).2 FY CY hb.2.2.1 hb.2.2.2] at hprod
    rw [hfilter]
    exact hprod.trans (one_mul 1)
  refine ⟨?_, ?_, ?_⟩
  · calc ((generateCells (FX * g) (CX * g) (FY * g) (CY * g) g pts).map
          (cellCount pts)).sum
        = ((((pyRange (FX * g) (CX * g) g).map
            (fun x => (pyRange (FY * g) (CY * g) g).map
              (fun y => (x, y)))).flatten).map
                (fun xy => cellCount pts (cellBox xy.1 xy.2 g))).sum :=
          sum_filterMap_processCell pts g _
      _ = (pts.map (fun p =>
            ((((pyRange (FX * g) (CX * g) g).map
              (fun x => (pyRange (FY * g) (CY * g) g).map
                (fun y => (x, y)))).flatten).filter
                  (fun xy => centroidWithin (cellBox xy.1 xy.2 g) p)).length)).sum :=
          sum_map_filter_length_swap
            (fun (xy : ℤ × ℤ) (p : ℚ × ℚ) =>
              centroidWithin (cellBox xy.1 xy.2 g) p) _ pts
      _ = pts.length := sum_map_one pts _ hcount
  · intro c hc
    obtain ⟨x, y, hx, hy, hceq, hpos⟩ := mem_generateCells _ _ _ _ _ _ c hc
    exact hpos
  · intro c1 hc1 c2 hc2 p hp hw1 hw2
    obtain ⟨x1, y1, hx1, hy1, rfl, -⟩ := mem_generateCells _ _ _ _ _ _ c1 hc1
    obtain ⟨x2, y2, hx2, hy2, rfl, -⟩ := mem_generateCells _ _ _ _ _ _ c2 hc2
    obtain ⟨vx1, rfl⟩ := mem_pyRange_aligned FX CX g x1 hx1
    obtain ⟨vy1, rfl⟩ := mem_pyRange_aligned FY CY g y1 hy1
    obtain ⟨vx2, rfl⟩ := mem_pyRange_aligned FX CX g x2 hx2
    obtain ⟨vy2, rfl⟩ := mem_pyRange_aligned FY CY g y2 hy2
    rw [centroidWithin_cellBox, Bool.and_eq_true] at hw1 hw2
    have hvx1 := (inAxis_iff g hg p.1 (hoff p hp).1 vx1).mp hw1.1
    have hvx2 := (inAxis_iff g hg p.1 (hoff p hp).1 vx2).mp hw2.1
    have hvy1 := (inAxis_iff g hg p.2 (hoff p hp).2 vy1).mp hw1.2
    have hvy2 := (inAxis_iff g hg p.2 (hoff p hp).2 vy2).mp hw2.2
    rw [hvx1.trans hvx2.symm, hvy1.trans hvy2.symm]

/-- A rational with a nontrivial denominator, or whose numerator g does
not divide, is never an integer multiple of g. -/
theorem not_on_grid (v : ℚ) (g : ℤ) (h : ¬(v.den = 1 ∧ g ∣ v.num)) :
    ∀ k : ℤ, v ≠ ((k * g : ℤ) : ℚ) := by
  intro k hk
  apply h
  rw [hk]
  refine ⟨Rat.den_intCast _, ?_⟩
  rw [Rat.num_intCast]
  exact ⟨k, mul_comm k g⟩

/-- C1 (amended): for a positive cell size, if no feature centroid lies
exactly on a grid line (no coordinate is an integer multiple of the cell
size), the emitted cells do partition the features: per-cell
contained-centroid counts sum to the total count, every emitted cell
contains a centroid, and no centroid is within two distinct emitted
cells. -/
theorem C1_partition_amended (pts : List (ℚ × ℚ)) (g : ℤ) (hg : 0 < g)
    (hoff : ∀ p ∈ pts, (∀ k : ℤ, p.1 ≠ ((k * g : ℤ) : ℚ)) ∧
      (∀ k : ℤ, p.2 ≠ ((k * g : ℤ) : ℚ))) :
    ((gridCreateOnIntersectingCentroid pts g).map (cellCount pts)).sum =
      pts.length ∧
    (∀ c ∈ gridCreateOnIntersectingCentroid pts g, 0 < cellCount pts c) ∧
    (∀ c1 ∈ gridCreateOnIntersectingCentroid pts g,
      ∀ c2 ∈ gridCreateOnIntersectingCentroid pts g,
      ∀ p ∈ pts, centroidWithin c1 p = true → centroidWithin c2 p = true →
        c1 = c2) := by
  have hbnd : ∀ p ∈ pts,
      ⌊listMinQ (pts.map Prod.fst) / (g : ℚ)⌋ ≤ ⌊p.1 / (g : ℚ)⌋ ∧
      ⌊p.1 / (g : ℚ)⌋ < ⌈listMaxQ (pts.map Prod.fst) / (g : ℚ)⌉ ∧
      ⌊listMinQ (pts.map Prod.snd) / (g : ℚ)⌋ ≤ ⌊p.2 / (g : ℚ)⌋ ∧
      ⌊p.2 / (g : ℚ)⌋ < ⌈listMaxQ (pts.map Prod.snd) / (g : ℚ)⌉ := by
    intro p hp
    have hfx := floor_bounds g hg (listMinQ (pts.map Prod.fst)) p.1
      (listMaxQ (pts.map Prod.fst))
      (listMinQ_le _ _ (List.mem_map_of_mem Prod.fst hp))
      (le_listMaxQ _ _ (List.mem_map_of_mem Prod.fst hp)) (hoff p hp).1
    have hfy := floor_bounds g hg (listMinQ (pts.map Prod.snd)) p.2
      (listMaxQ (pts.map Prod.snd))
      (listMinQ_le _ _ (List.mem_map_of_mem Prod.snd hp))
      (le_listMaxQ _ _ (List.mem_map_of_mem Prod.snd hp)) (hoff p hp).2
    exact ⟨hfx.1, hfx.2, hfy.1, hfy.2⟩
  have hmain := generateCells_partition pts g hg
    ⌊listMinQ (pts.map Prod.fst) / (g : ℚ)⌋
    ⌈listMaxQ (pts.map Prod.fst) / (g : ℚ)⌉
    ⌊listMinQ (pts.map Prod.snd) / (g : ℚ)⌋
    ⌈listMaxQ (pts.map Prod.snd) / (g : ℚ)⌉ hoff hbnd
  have hgrid : gridCreateOnIntersectingCentroid pts g =
      generateCells (⌊listMinQ (pts.map Prod.fst) / (g : ℚ)⌋ * g)
        (⌈listMaxQ (pts.map Prod.fst) / (g : ℚ)⌉ * g)
        (⌊listMinQ (pts.map Prod.snd) / (g : ℚ)⌋ * g)
        (⌈listMaxQ (pts.map Prod.snd) / (g : ℚ)⌉ * g) g pts := by
    simp only [gridCreateOnIntersectingCentroid, gridFloorAlign_eq,
      gridCeilAlign_eq]
  rw [hgrid]
  exact hmain

/-- Two off-grid points, one per cell of a 2 x 1 block of 2000-cells. -/
def c1WPts : List (ℚ × ℚ) := [(10, 5), (3000, 7)]

/-- C1 witness: the amended partition property at a concrete input. -/
theorem C1_partition_amended_witness :
    ((gridCreateOnIntersectingCentroid c1WPts 2000).map
      (cellCount c1WPts)).sum = c1WPts.length := by
  refine (C1_partition_amended c1WPts 2000 (by decide) ?_).1
  intro p hp
  have hmem : p = ((10 : ℚ), (5 : ℚ)) ∨ p = ((3000 : ℚ), (7 : ℚ)) := by
    simpa [c1WPts] using hp
  rcases hmem with rfl | rfl
  · exact ⟨not_on_grid 10 2000 (by decide), not_on_grid 5 2000 (by decide)⟩
  · exact ⟨not_on_grid 3000 2000 (by decide), not_on_grid 7 2000 (by decide)⟩

/-! ## C2: the point-cloud tile splitter (src/src/roofhelper/pointcloud/laz.py)

Points carry exact rational x/y coordinates; the laspy header mins and
maxs are the coordinate-wise minima and maxima of the points.  The
numpy astype cast to an integer dtype truncates toward zero, and Python
int() on a float does the same. -/

/-- Decimal digit character. -/
def digitChar (n : ℕ) : Char := Char.ofNat (48 + n)

/-- Decimal digits of n, most significant first, with fuel. -/
def natDigits : ℕ → ℕ → List Char
  | 0, _ => []
  | fuel + 1, n =>
    if n < 10 then [digitChar n]
    else natDigits fuel (n / 10) ++ [digitChar (n % 10)]

/-- Python str of a nonnegative integer. -/
def natStr (n : ℕ) : String := ⟨natDigits (n + 1) n⟩

/-- Python str of an integer. -/
def intStr (z : ℤ) : String :=
  if z < 0 then "-" ++ natStr z.natAbs else natStr z.natAbs

/-- math.floor(v of grid_size) * grid_size, in float arithmetic. -/
def lazGridOrigin (v g : ℚ) : ℚ := qmul ((Rat.floor (qdiv v g) : ℤ) : ℚ) g

/-- math.ceil(v of grid_size) * grid_size, in float arithmetic. -/
def lazGridMax (v g : ℚ) : ℚ := qmul ((Rat.ceil (qdiv v g) : ℤ) : ℚ) g

/-- chunk_size = int(max_memory_bytes / estimated_point_size), with
max_memory_bytes = 1 * 1024 * 1024 * 1024 = 1073741824 (1GB) and
estimated_point_size = 40 + 10 = 50. -/
def chunkSize : ℤ := ratTrunc (qdiv 1073741824 50)

/-- laspy chunk_iterator: cut the stream into chunks of at most n
points, in order; go keeps the current chunk reversed in acc with k
slots left. -/
def chunksGo {α : Type} (n : ℕ) : List α → List α → ℕ → List (List α)
  | [], [], _ => []
  | [], a :: acc, _ => [(a :: acc).reverse]
  | x :: xs, acc, k + 1 => chunksGo n xs (x :: acc) k
  | x :: xs, acc, 0 => acc.reverse :: chunksGo n xs [x] (n - 1)

/-- The list of point chunks of size n. -/
def chunks {α : Type} (n : ℕ) (l : List α) : List (List α) := chunksGo n l [] n

/-- ((coordinate - grid_origin) / grid_size).astype(np.int32): the tile
index of a coordinate. -/
def tileIdx (origin g c : ℚ) : ℤ := ratTrunc (qdiv (qsub c origin) g)

/-- An output tile: its file path and accumulated points. -/
structure LazTile where
  name : String
  pts : List (ℚ × ℚ)
deriving DecidableEq, Repr

/-- os.path.join(output_dir, f"{stem}_{int(start_x)}_{int(start_y)}.laz"). -/
def lazTileName (dir stem : String) (sx sy : ℚ) : String :=
  ⟨osPathJoin dir.data
    (stem ++ "_" ++ intStr (ratTrunc sx) ++ "_" ++ intStr (ratTrunc sy)
      ++ ".laz").data⟩

/-- The tile_path the code computes for loop indices (tx, ty):
start_x = grid_origin_x + tx * grid_size, start_y likewise. -/
def tileNameAt (dir stem : String) (ox oy g : ℚ) (txy : ℤ × ℤ) : String :=
  lazTileName dir stem (qadd ox (qmul ((txy.1 : ℤ) : ℚ) g))
    (qadd oy (qmul ((txy.2 : ℤ) : ℚ) g))

/-- The run state: generated_tiles, an insertion-ordered dict from
(tx, ty) to the tile_path registered for it, and the output directory
contents, an association of file path to the points the file holds.
Two registry keys may map to the same file path: int(start_x) can
collide for a non-integer grid size. -/
structure LazState where
  registry : List ((ℤ × ℤ) × String)
  files : List (String × List (ℚ × ℚ))
deriving DecidableEq, Repr

/-- (tx, ty) in generated_tiles. -/
def hasKey (reg : List ((ℤ × ℤ) × String)) (txy : ℤ × ℤ) : Bool :=
  reg.any (fun e => e.1 == txy)

/-- laspy.open(path, mode="a") + append_points: append to the file of
that path (appending to a missing path creates it). -/
def appendFile : List (String × List (ℚ × ℚ)) → String → List (ℚ × ℚ) →
    List (String × List (ℚ × ℚ))
  | [], nm, sel => [(nm, sel)]
  | e :: rest, nm, sel =>
    if e.1 == nm then (e.1, e.2 ++ sel) :: rest
    else e :: appendFile rest nm sel

/-- laspy.open(path, mode="w") + write_points: create the file of that
path, truncating any previous contents under the same path. -/
def writeFile : List (String × List (ℚ × ℚ)) → String → List (ℚ × ℚ) →
    List (String × List (ℚ × ℚ))
  | [], nm, sel => [(nm, sel)]
  | e :: rest, nm, sel =>
    if e.1 == nm then (e.1, sel) :: rest
    else e :: writeFile rest nm sel

/-- One (tx, ty) step of the per-chunk double loop: select the masked
points; skip when none; when (tx, ty) is not yet registered, register
it and write its file with mode "w" (truncating a colliding earlier
file of the same name), else append to the file of the computed path. -/
def processPair (dir stem : String) (ox oy g : ℚ) (chunk : List (ℚ × ℚ))
    (st : LazState) (txy : ℤ × ℤ) : LazState :=
  let sel := chunk.filter
    (fun p => tileIdx ox g p.1 == txy.1 && tileIdx oy g p.2 == txy.2)
  if sel.isEmpty then st
  else if hasKey st.registry txy then
    { st with files := appendFile st.files (tileNameAt dir stem ox oy g txy) sel }
  else
    { registry := st.registry ++ [(txy, tileNameAt dir stem ox oy g txy)],
      files := writeFile st.files (tileNameAt dir stem ox oy g txy) sel }

/-- The (tx, ty) loop order of the source: tx outer, ty inner. -/
def tilePairs (mtx mty : ℤ) : List (ℤ × ℤ) :=
  ((pyRange 0 mtx 1).map (fun tx => (pyRange 0 mty 1).map
    (fun ty => (tx, ty)))).flatten

/-- Process one chunk: run the double loop over the tile grid. -/
def processChunk (dir stem : String) (ox oy g : ℚ) (mtx mty : ℤ)
    (st : LazState) (chunk : List (ℚ × ℚ)) : LazState :=
  (tilePairs mtx mty).foldl (processPair dir stem ox oy g chunk) st

/-- laz_tile_split: align the header bounds, derive the tile-count
bounds, and fold the chunk iterator through the double loop, starting
from an empty dict and an empty output directory. -/
def lazTileSplit (dir stem : String) (pts : List (ℚ × ℚ)) (g : ℚ) :
    LazState :=
  let ox := lazGridOrigin (listMinQ (pts.map Prod.fst)) g
  let oy := lazGridOrigin (listMinQ (pts.map Prod.snd)) g
  let gx := lazGridMax (listMaxQ (pts.map Prod.fst)) g
  let gy := lazGridMax (listMaxQ (pts.map Prod.snd)) g
  let mtx := ratTrunc (qdiv (qsub gx ox) g)
  let mty := ratTrunc (qdiv (qsub gy oy) g)
  (chunks chunkSize.toNat pts).foldl
    (processChunk dir stem ox oy g mtx mty) ⟨[], []⟩

/-- The returned list(generated_tiles.values()). -/
def lazTileSplitPaths (dir stem : String) (pts : List (ℚ × ℚ)) (g : ℚ) :
    List String :=
  (lazTileSplit dir stem pts g).registry.map Prod.snd

/-- Total number of points present in the output directory. -/
def filesSum (files : List (String × List (ℚ × ℚ))) : ℕ :=
  (files.map (fun e => e.2.length)).sum

/-- Proof-side per-key view of the run: one record per registered
(tx, ty), carrying the path registered for it and the points selected
for it so far.  It is related to the faithful file-level state by
absState below; the two agree exactly when distinct keys get distinct
paths. -/
def appendTile : List ((ℤ × ℤ) × LazTile) → (ℤ × ℤ) → List (ℚ × ℚ) →
    List ((ℤ × ℤ) × LazTile)
  | [], _, _ => []
  | e :: rest, txy, sel =>
    if e.1 == txy then (e.1, ⟨e.2.name, e.2.pts ++ sel⟩) :: rest
    else e :: appendTile rest txy sel

/-- Key lookup in the per-key view. -/
def absHasTile (st : List ((ℤ × ℤ) × LazTile)) (txy : ℤ × ℤ) : Bool :=
  st.any (fun e => e.1 == txy)

/-- The (tx, ty) step on the per-key view. -/
def absPair (dir stem : String) (ox oy g : ℚ) (chunk : List (ℚ × ℚ))
    (st : List ((ℤ × ℤ) × LazTile)) (txy : ℤ × ℤ) :
    List ((ℤ × ℤ) × LazTile) :=
  let sel := chunk.filter
    (fun p => tileIdx ox g p.1 == txy.1 && tileIdx oy g p.2 == txy.2)
  if sel.isEmpty then st
  else if absHasTile st txy then appendTile st txy sel
  else st ++ [(txy, ⟨tileNameAt dir stem ox oy g txy, sel⟩)]

/-- The chunk step on the per-key view. -/
def absChunk (dir stem : String) (ox oy g : ℚ) (mtx mty : ℤ)
    (st : List ((ℤ × ℤ) × LazTile)) (chunk : List (ℚ × ℚ)) :
    List ((ℤ × ℤ) × LazTile) :=
  (tilePairs mtx mty).foldl (absPair dir stem ox oy g chunk) st

/-- Total number of selected points in the per-key view. -/
def absStateSum (st : List ((ℤ × ℤ) × LazTile)) : ℕ :=
  (st.map (fun e => e.2.pts.length)).sum

/-- C2: COUNTEREXAMPLE.  The splitter does not conserve points: for the
single point (0, 0) and grid size 2000 the maxima sit exactly on the
ceiling-aligned grid maximum, the tile loop range(0, max_tile) is
empty, no tile is produced, and the point is dropped (0 written, 1
input). -/
theorem C2_split_counterexample :
    ([((0 : ℚ), (0 : ℚ))] : List (ℚ × ℚ)).length = 1 ∧
    lazTileSplit "out" "tile" [((0 : ℚ), (0 : ℚ))] 2000 =
      ⟨[], []⟩ ∧
    lazTileSplitPaths "out" "tile" [((0 : ℚ), (0 : ℚ))] 2000 = [] := by
  refine ⟨rfl, by decide, by decide⟩

/-- Two points at x = 1/10 and x = 3/5 with grid size 1/2: they belong
to the distinct tiles (0, 0) and (1, 0), but int(start_x) is 0 for
both, so both tile paths are out/tile_0_0.laz. -/
def c2CollPts : List (ℚ × ℚ) :=
  [(Rat.divInt 1 10, Rat.divInt 1 10), (Rat.divInt 3 5, Rat.divInt 1 10)]

/-- For a non-integer grid size the truncated-int file names of
distinct tiles can collide, and the mode="w" open of the second tile
truncates the first tile file: two registered tiles, one file, one of
two points surviving on disk. -/
theorem lazTileSplit_name_collision :
    c2CollPts.length = 2 ∧
    (lazTileSplit "out" "tile" c2CollPts (Rat.divInt 1 2)).registry.length
      = 2 ∧
    (lazTileSplit "out" "tile" c2CollPts (Rat.divInt 1 2)).files =
      [("out/tile_0_0.laz", [(Rat.divInt 3 5, Rat.divInt 1 10)])] ∧
    filesSum (lazTileSplit "out" "tile" c2CollPts (Rat.divInt 1 2)).files
      = 1 := by
  refine ⟨rfl, by decide, by decide, by decide⟩

theorem chunksGo_flatten {α : Type} (n : ℕ) :
    ∀ (l acc : List α) (k : ℕ), (chunksGo n l acc k).flatten = acc.reverse ++ l
  | [], [], _ => by simp [chunksGo]
  | [], a :: acc, _ => by simp [chunksGo]
  | x :: xs, acc, k + 1 => by
    rw [show chunksGo n (x :: xs) acc (k + 1) = chunksGo n xs (x :: acc) k
      from rfl]
    rw [chunksGo_flatten n xs (x :: acc) k]
    simp
  | x :: xs, acc, 0 => by
    rw [show chunksGo n (x :: xs) acc 0 =
      acc.reverse :: chunksGo n xs [x] (n - 1) from rfl]
    rw [List.flatten_cons, chunksGo_flatten n xs [x] (n - 1)]
    simp

theorem chunks_flatten {α : Type} (n : ℕ) (l : List α) :
    (chunks n l).flatten = l := by
  rw [chunks, chunksGo_flatten]
  simp

theorem foldl_sum_shift_mem {σ α : Type} (f : σ → α → σ) (m : σ → ℕ)
    (w : α → ℕ) :
    ∀ (l : List α) (s : σ), (∀ s2 a, a ∈ l → m (f s2 a) = m s2 + w a) →
      m (l.foldl f s) = m s + (l.map w).sum
  | [], s, _ => by simp
  | a :: l, s, hf => by
    rw [List.foldl_cons, foldl_sum_shift_mem f m w l (f s a)
      (fun s2 b hb => hf s2 b (List.mem_cons_of_mem a hb))]
    rw [hf s a (List.mem_cons_self a l), List.map_cons, List.sum_cons]
    omega

theorem foldl_pres {σ α : Type} (f : σ → α → σ) (P : σ → Prop) :
    ∀ (l : List α) (s : σ), P s → (∀ s2 a, a ∈ l → P s2 → P (f s2 a)) →
      P (l.foldl f s)
  | [], _, hs, _ => hs
  | a :: l, s, hs, hf => by
    rw [List.foldl_cons]
    exact foldl_pres f P l (f s a) (hf s a (List.mem_cons_self a l) hs)
      (fun s2 b hb => hf s2 b (List.mem_cons_of_mem a hb))

theorem ratTrunc_intCast (z : ℤ) : ratTrunc ((z : ℤ) : ℚ) = z := by
  simp [ratTrunc, Rat.num_intCast, Rat.den_intCast, Int.tdiv_one]

theorem mtx_eq (g : ℚ) (hg : g ≠ 0) (F C : ℤ) :
    ratTrunc (qdiv (qsub ((C : ℚ) * g) ((F : ℚ) * g)) g) = C - F := by
  rw [qsub_eq, qdiv_eq]
  have h : ((C : ℚ) * g - (F : ℚ) * g) / g = ((C - F : ℤ) : ℚ) := by
    push_cast
    field_simp
    ring
  rw [h, ratTrunc_intCast]

theorem lazGridOrigin_eq (v g : ℚ) :
    lazGridOrigin v g = ((⌊v / g⌋ : ℤ) : ℚ) * g := by
  rw [lazGridOrigin, qmul_eq, qdiv_eq]
  rfl

theorem lazGridMax_eq (v g : ℚ) :
    lazGridMax v g = ((⌈v / g⌉ : ℤ) : ℚ) * g := by
  rw [lazGridMax, qmul_eq, qdiv_eq, ratCeil_eq]

theorem floor_lt_ceil_of_ne (a : ℚ) (h : ∀ k : ℤ, a ≠ (k : ℚ)) :
    ⌊a⌋ < ⌈a⌉ := by
  rcases lt_or_eq_of_le (Int.floor_le_ceil a) with hlt | heq
  · exact hlt
  · exfalso
    apply h ⌊a⌋
    have h1 : ((⌊a⌋ : ℤ) : ℚ) ≤ a := Int.floor_le a
    have h2 : a ≤ ((⌈a⌉ : ℤ) : ℚ) := Int.le_ceil a
    rw [← heq] at h2
    exact le_antisymm h2 h1

theorem tileIdx_eq_floor (g : ℚ) (hg : 0 < g) (F : ℤ) (c : ℚ)
    (hc : ((F : ℤ) : ℚ) * g ≤ c) :
    tileIdx (((F : ℤ) : ℚ) * g) g c = ⌊c / g⌋ - F := by
  have hgz : g ≠ 0 := ne_of_gt hg
  rw [tileIdx, qsub_eq, qdiv_eq]
  have h0 : 0 ≤ (c - ((F : ℤ) : ℚ) * g) / g :=
    div_nonneg (by linarith) (le_of_lt hg)
  have hdiv : (c - ((F : ℤ) : ℚ) * g) / g = c / g - ((F : ℤ) : ℚ) := by
    rw [sub_div, mul_div_cancel_right₀ _ hgz]
  rw [ratTrunc_eq_floor _ h0, hdiv, Int.floor_sub_int]

theorem floor_boundsQ (g : ℚ) (hg : 0 < g) (lo t hi : ℚ) (hlo : lo ≤ t)
    (hhi : t ≤ hi) (hoff : ∀ k : ℤ, hi ≠ (k : ℚ) * g) :
    ⌊lo / g⌋ ≤ ⌊t / g⌋ ∧ ⌊t / g⌋ < ⌈hi / g⌉ := by
  have hgz : g ≠ 0 := ne_of_gt hg
  constructor
  · exact Int.floor_mono ((div_le_div_right hg).mpr hlo)
  · have h1 : ⌊t / g⌋ ≤ ⌊hi / g⌋ := Int.floor_mono ((div_le_div_right hg).mpr hhi)
    have h2 : ⌊hi / g⌋ < ⌈hi / g⌉ := by
      apply floor_lt_ceil_of_ne
      intro k hk
      exact hoff k ((div_eq_iff hgz).mp hk)
    omega

theorem count_pyRange01 (w m : ℤ) (h0 : 0 ≤ w) (hm : w < m) :
    ((pyRange 0 m 1).filter (fun v => w == v)).length = 1 := by
  have hlen : pyRangeLen 0 m 1 = m.toNat := by
    have h : m - 0 + 1 - 1 = m := by ring
    rw [pyRangeLen, h, Int.ediv_one]
  rw [pyRange, hlen, List.filter_map, List.length_map,
    ← List.countP_eq_length_filter]
  apply countP_range_eq_one _ w.toNat
  · show (w == 0 + ((w.toNat : ℕ) : ℤ) * 1) = true
    rw [beq_iff_eq]
    omega
  · omega
  · intro i hi hPi
    have hPi2 : (w == 0 + ((i : ℕ) : ℤ) * 1) = true := hPi
    rw [beq_iff_eq] at hPi2
    omega

theorem absStateSum_cons (e : (ℤ × ℤ) × LazTile)
    (st : List ((ℤ × ℤ) × LazTile)) :
    absStateSum (e :: st) = e.2.pts.length + absStateSum st := by
  simp [absStateSum]

theorem absStateSum_snoc (st : List ((ℤ × ℤ) × LazTile))
    (e : (ℤ × ℤ) × LazTile) :
    absStateSum (st ++ [e]) = absStateSum st + e.2.pts.length := by
  simp [absStateSum]

theorem appendTile_sum : ∀ (st : List ((ℤ × ℤ) × LazTile)) (txy : ℤ × ℤ)
    (sel : List (ℚ × ℚ)), absHasTile st txy = true →
    absStateSum (appendTile st txy sel) = absStateSum st + sel.length
  | [], txy, sel, h => by simp [absHasTile] at h
  | e :: rest, txy, sel, h => by
    simp only [appendTile]
    by_cases he : (e.1 == txy) = true
    · rw [if_pos he, absStateSum_cons, absStateSum_cons, List.length_append]
      omega
    · rw [if_neg he]
      have hrest : absHasTile rest txy = true := by
        simp only [absHasTile, List.any_cons] at h
        rw [Bool.or_eq_true] at h
        rcases h with h1 | h2
        · exact absurd h1 he
        · exact h2
      rw [absStateSum_cons, appendTile_sum rest txy sel hrest,
        absStateSum_cons]
      omega

theorem absPair_sum (dir stem : String) (ox oy g : ℚ)
    (chunk : List (ℚ × ℚ)) (st : List ((ℤ × ℤ) × LazTile)) (txy : ℤ × ℤ) :
    absStateSum (absPair dir stem ox oy g chunk st txy) =
      absStateSum st + (chunk.filter
        (fun p => tileIdx ox g p.1 == txy.1 &&
          tileIdx oy g p.2 == txy.2)).length := by
  simp only [absPair]
  by_cases hsel : (chunk.filter
      (fun p => tileIdx ox g p.1 == txy.1 &&
        tileIdx oy g p.2 == txy.2)).isEmpty = true
  · rw [if_pos hsel]
    have hnil := List.isEmpty_iff.mp hsel
    rw [hnil]
    rfl
  · rw [if_neg hsel]
    by_cases hht : absHasTile st txy = true
    · rw [if_pos hht, appendTile_sum st txy _ hht]
    · rw [if_neg hht, absStateSum_snoc]

theorem pairs_count_all (ox oy g : ℚ) (mtx mty : ℤ)
    (chunk : List (ℚ × ℚ))
    (hin : ∀ p ∈ chunk, 0 ≤ tileIdx ox g p.1 ∧ tileIdx ox g p.1 < mtx ∧
      0 ≤ tileIdx oy g p.2 ∧ tileIdx oy g p.2 < mty) :
    ((tilePairs mtx mty).map (fun txy => (chunk.filter
      (fun p => tileIdx ox g p.1 == txy.1 &&
        tileIdx oy g p.2 == txy.2)).length)).sum = chunk.length := by
  have hone : ∀ p ∈ chunk, ((tilePairs mtx mty).filter
      (fun txy => tileIdx ox g p.1 == txy.1 &&
        tileIdx oy g p.2 == txy.2)).length = 1 := by
    intro p hp
    have hb := hin p hp
    have hprod := flatten_filter_prod_length (pyRange 0 mtx 1)
      (pyRange 0 mty 1)
      (fun v => tileIdx ox g p.1 == v) (fun v => tileIdx oy g p.2 == v)
    rw [count_pyRange01 _ _ hb.1 hb.2.1,
      count_pyRange01 _ _ hb.2.2.1 hb.2.2.2] at hprod
    rw [tilePairs]
    exact hprod.trans (one_mul 1)
  calc ((tilePairs mtx mty).map (fun txy => (chunk.filter
        (fun p => tileIdx ox g p.1 == txy.1 &&
          tileIdx oy g p.2 == txy.2)).length)).sum
      = (chunk.map (fun p => ((tilePairs mtx mty).filter
          (fun txy => tileIdx ox g p.1 == txy.1 &&
            tileIdx oy g p.2 == txy.2)).length)).sum :=
        sum_map_filter_length_swap
          (fun (txy : ℤ × ℤ) (p : ℚ × ℚ) =>
            tileIdx ox g p.1 == txy.1 && tileIdx oy g p.2 == txy.2)
          (tilePairs mtx mty) chunk
    _ = chunk.length := sum_map_one chunk _ hone

set_option maxHeartbeats 1600000 in
theorem absChunk_sum (dir stem : String) (ox oy g : ℚ) (mtx mty : ℤ)
    (st : List ((ℤ × ℤ) × LazTile)) (chunk : List (ℚ × ℚ))
    (hcnt : ((tilePairs mtx mty).map (fun txy => (chunk.filter
      (fun p => tileIdx ox g p.1 == txy.1 &&
        tileIdx oy g p.2 == txy.2)).length)).sum = chunk.length) :
    absStateSum (absChunk dir stem ox oy g mtx mty st chunk) =
      absStateSum st + chunk.length := by
  rw [absChunk]
  have h : absStateSum ((tilePairs mtx mty).foldl
      (absPair dir stem ox oy g chunk) st) =
      absStateSum st + ((tilePairs mtx mty).map
        (fun txy => (chunk.filter (fun p => tileIdx ox g p.1 == txy.1 &&
          tileIdx oy g p.2 == txy.2)).length)).sum :=
    foldl_sum_shift_mem _ _ _ _ _
      (fun s2 a _ => absPair_sum dir stem ox oy g chunk s2 a)
  rw [hcnt] at h
  exact h

/-- The running registry is sound: every registered point comes from the
input and sits in the tile of its own index, and every registered tile
carries the name derived from its origin. -/
def TileInv (dir stem : String) (ox oy g : ℚ) (pts : List (ℚ × ℚ))
    (st : List ((ℤ × ℤ) × LazTile)) : Prop :=
  ∀ e ∈ st, (∀ p ∈ e.2.pts, p ∈ pts ∧ tileIdx ox g p.1 = e.1.1 ∧
      tileIdx oy g p.2 = e.1.2) ∧
    e.2.name = tileNameAt dir stem ox oy g e.1

theorem appendTile_inv (dir stem : String) (ox oy g : ℚ)
    (pts : List (ℚ × ℚ)) :
    ∀ (st : List ((ℤ × ℤ) × LazTile)) (txy : ℤ × ℤ)
      (sel : List (ℚ × ℚ)),
      TileInv dir stem ox oy g pts st →
      (∀ p ∈ sel, p ∈ pts ∧ tileIdx ox g p.1 = txy.1 ∧
        tileIdx oy g p.2 = txy.2) →
      TileInv dir stem ox oy g pts (appendTile st txy sel)
  | [], txy, sel, hst, _ => by simpa [appendTile] using hst
  | e :: rest, txy, sel, hst, hsel => by
    simp only [appendTile]
    by_cases he : (e.1 == txy) = true
    · rw [if_pos he]
      have hetxy : e.1 = txy := beq_iff_eq.mp he
      intro f hf
      rcases List.mem_cons.mp hf with rfl | hfr
      · constructor
        · intro p hp
          rcases List.mem_append.mp hp with hpl | hpr
          · exact (hst e (List.mem_cons_self e rest)).1 p hpl
          · have h2 := hsel p hpr
            refine ⟨h2.1, ?_, ?_⟩
            · rw [h2.2.1, hetxy]
            · rw [h2.2.2, hetxy]
        · exact (hst e (List.mem_cons_self e rest)).2
      · exact hst f (List.mem_cons_of_mem e hfr)
    · rw [if_neg he]
      intro f hf
      rcases List.mem_cons.mp hf with hfe | hfr
      · rw [hfe]
        exact hst e (List.mem_cons_self e rest)
      · exact appendTile_inv dir stem ox oy g pts rest txy sel
          (fun f2 hf2 => hst f2 (List.mem_cons_of_mem e hf2)) hsel f hfr

theorem absPair_inv (dir stem : String) (ox oy g : ℚ)
    (pts chunk : List (ℚ × ℚ)) (hchunk : ∀ p ∈ chunk, p ∈ pts)
    (st : List ((ℤ × ℤ) × LazTile)) (txy : ℤ × ℤ)
    (hst : TileInv dir stem ox oy g pts st) :
    TileInv dir stem ox oy g pts
      (absPair dir stem ox oy g chunk st txy) := by
  simp only [absPair]
  have hsel : ∀ p ∈ chunk.filter
      (fun p => tileIdx ox g p.1 == txy.1 && tileIdx oy g p.2 == txy.2),
      p ∈ pts ∧ tileIdx ox g p.1 = txy.1 ∧ tileIdx oy g p.2 = txy.2 := by
    intro p hp
    have hm := List.mem_filter.mp hp
    have hb := hm.2
    rw [Bool.and_eq_true] at hb
    exact ⟨hchunk p hm.1, beq_iff_eq.mp hb.1, beq_iff_eq.mp hb.2⟩
  by_cases hemp : (chunk.filter
      (fun p => tileIdx ox g p.1 == txy.1 &&
        tileIdx oy g p.2 == txy.2)).isEmpty = true
  · rw [if_pos hemp]
    exact hst
  · rw [if_neg hemp]
    by_cases hht : absHasTile st txy = true
    · rw [if_pos hht]
      exact appendTile_inv dir stem ox oy g pts st txy _ hst hsel
    · rw [if_neg hht]
      intro f hf
      rcases List.mem_append.mp hf with hfl | hfr
      · exact hst f hfl
      · have hfe := List.mem_singleton.mp hfr
        subst hfe
        refine ⟨?_, rfl⟩
        intro p hp
        exact hsel p hp

theorem absChunk_inv (dir stem : String) (ox oy g : ℚ) (mtx mty : ℤ)
    (pts chunk : List (ℚ × ℚ)) (hchunk : ∀ p ∈ chunk, p ∈ pts)
    (st : List ((ℤ × ℤ) × LazTile))
    (hst : TileInv dir stem ox oy g pts st) :
    TileInv dir stem ox oy g pts
      (absChunk dir stem ox oy g mtx mty st chunk) := by
  rw [absChunk]
  exact foldl_pres _ (TileInv dir stem ox oy g pts) (tilePairs mtx mty) st
    hst
    (fun s2 a _ hs2 =>
      absPair_inv dir stem ox oy g pts chunk hchunk s2 a hs2)

theorem lazTileSplit_eq (dir stem : String) (pts : List (ℚ × ℚ)) (g : ℚ)
    (hgz : g ≠ 0) :
    lazTileSplit dir stem pts g =
      (chunks chunkSize.toNat pts).foldl
        (processChunk dir stem
          (((⌊listMinQ (pts.map Prod.fst) / g⌋ : ℤ) : ℚ) * g)
          (((⌊listMinQ (pts.map Prod.snd) / g⌋ : ℤ) : ℚ) * g) g
          (⌈listMaxQ (pts.map Prod.fst) / g⌉ -
            ⌊listMinQ (pts.map Prod.fst) / g⌋)
          (⌈listMaxQ (pts.map Prod.snd) / g⌉ -
            ⌊listMinQ (pts.map Prod.snd) / g⌋)) ⟨[], []⟩ := by
  simp only [lazTileSplit]
  rw [lazGridOrigin_eq, lazGridOrigin_eq, lazGridMax_eq, lazGridMax_eq]
  rw [mtx_eq g hgz, mtx_eq g hgz]

theorem lazFold_master (dir stem : String) (pts : List (ℚ × ℚ)) (g : ℚ)
    (hg : 0 < g) (FX CX FY CY : ℤ)
    (hbnd : ∀ p ∈ pts, FX ≤ ⌊p.1 / g⌋ ∧ ⌊p.1 / g⌋ < CX ∧
      FY ≤ ⌊p.2 / g⌋ ∧ ⌊p.2 / g⌋ < CY) :
    absStateSum ((chunks chunkSize.toNat pts).foldl
      (absChunk dir stem (((FX : ℤ) : ℚ) * g) (((FY : ℤ) : ℚ) * g) g
        (CX - FX) (CY - FY)) []) = pts.length ∧
    TileInv dir stem (((FX : ℤ) : ℚ) * g) (((FY : ℤ) : ℚ) * g) g pts
      ((chunks chunkSize.toNat pts).foldl
        (absChunk dir stem (((FX : ℤ) : ℚ) * g) (((FY : ℤ) : ℚ) * g) g
          (CX - FX) (CY - FY)) []) := by
  have hgq : (0 : ℚ) < g := hg
  have hchunk : ∀ c ∈ chunks chunkSize.toNat pts, ∀ p ∈ c, p ∈ pts := by
    intro c hc p hp
    have hm : p ∈ (chunks chunkSize.toNat pts).flatten :=
      List.mem_flatten.mpr ⟨c, hc, hp⟩
    rwa [chunks_flatten] at hm
  have hin : ∀ p ∈ pts,
      0 ≤ tileIdx (((FX : ℤ) : ℚ) * g) g p.1 ∧
      tileIdx (((FX : ℤ) : ℚ) * g) g p.1 < CX - FX ∧
      0 ≤ tileIdx (((FY : ℤ) : ℚ) * g) g p.2 ∧
      tileIdx (((FY : ℤ) : ℚ) * g) g p.2 < CY - FY := by
    intro p hp
    have hb := hbnd p hp
    have hxle : ((FX : ℤ) : ℚ) * g ≤ p.1 := by
      have h1 : ((FX : ℤ) : ℚ) ≤ p.1 / g := by
        calc ((FX : ℤ) : ℚ) ≤ ((⌊p.1 / g⌋ : ℤ) : ℚ) := by
              exact_mod_cast hb.1
          _ ≤ p.1 / g := Int.floor_le _
      have h2 := (le_div_iff hgq).mp h1
      linarith
    have hyle : ((FY : ℤ) : ℚ) * g ≤ p.2 := by
      have h1 : ((FY : ℤ) : ℚ) ≤ p.2 / g := by
        calc ((FY : ℤ) : ℚ) ≤ ((⌊p.2 / g⌋ : ℤ) : ℚ) := by
              exact_mod_cast hb.2.2.1
          _ ≤ p.2 / g := Int.floor_le _
      have h2 := (le_div_iff hgq).mp h1
      linarith
    rw [tileIdx_eq_floor g hg FX p.1 hxle, tileIdx_eq_floor g hg FY p.2 hyle]
    omega
  constructor
  · have h : absStateSum ((chunks chunkSize.toNat pts).foldl
        (absChunk dir stem (((FX : ℤ) : ℚ) * g) (((FY : ℤ) : ℚ) * g) g
          (CX - FX) (CY - FY)) []) =
        absStateSum [] + ((chunks chunkSize.toNat pts).map List.length).sum :=
      foldl_sum_shift_mem _ _ _ _ _
        (fun s2 c hc => absChunk_sum dir stem _ _ g (CX - FX) (CY - FY)
          s2 c (pairs_count_all _ _ g (CX - FX) (CY - FY) c
            (fun p hp => hin p (hchunk c hc p hp))))
    rw [h]
    have hlen : ((chunks chunkSize.toNat pts).map List.length).sum =
        pts.length := by
      conv_rhs => rw [← chunks_flatten chunkSize.toNat pts]
      rw [List.length_flatten]
    rw [hlen]
    simp [absStateSum]
  · exact foldl_pres _ _ (chunks chunkSize.toNat pts) []
      (fun e he => absurd he (List.not_mem_nil e))
      (fun s2 c hc hs2 => absChunk_inv dir stem _ _ g (CX - FX)
        (CY - FY) pts c (hchunk c hc) s2 hs2)

/-- A rational whose quotient by g has a nontrivial denominator is never
an integer multiple of g. -/
theorem not_on_gridQ (v g : ℚ) (hg : g ≠ 0) (h : ¬((qdiv v g).den = 1)) :
    ∀ k : ℤ, v ≠ (k : ℚ) * g := by
  intro k hk
  apply h
  rw [qdiv_eq, hk, mul_div_cancel_right₀ _ hg]
  exact Rat.den_intCast k

/-- The three points of the spec scenario: one per expected tile. -/
def c2WPts : List (ℚ × ℚ) := [(10, 10), (2010, 10), (10, 2010)]

theorem digitChar_ne_underscore (d : ℕ) (hd : d < 10) : digitChar d ≠ '_' := by
  rw [digitChar]
  interval_cases d <;> decide

theorem digitChar_ne_dash (d : ℕ) (hd : d < 10) : digitChar d ≠ '-' := by
  rw [digitChar]
  interval_cases d <;> decide

theorem natDigits_chars : ∀ (fuel n : ℕ), ∀ c ∈ natDigits fuel n,
    ∃ d, d < 10 ∧ c = digitChar d
  | 0, n => by
    intro c hc
    exact absurd hc (List.not_mem_nil c)
  | fuel + 1, n => by
    intro c hc
    simp only [natDigits] at hc
    by_cases hn : n < 10
    · rw [if_pos hn] at hc
      exact ⟨n, hn, List.mem_singleton.mp hc⟩
    · rw [if_neg hn] at hc
      rcases List.mem_append.mp hc with h1 | h2
      · exact natDigits_chars fuel (n / 10) c h1
      · exact ⟨n % 10, Nat.mod_lt _ (by omega), List.mem_singleton.mp h2⟩

theorem underscore_not_mem_natDigits (fuel n : ℕ) :
    '_' ∉ natDigits fuel n := by
  intro hmem
  obtain ⟨d, hd, hc⟩ := natDigits_chars fuel n '_' hmem
  exact digitChar_ne_underscore d hd hc.symm

theorem underscore_not_mem_intStr (z : ℤ) : '_' ∉ (intStr z).data := by
  rw [intStr]
  by_cases hz : z < 0
  · rw [if_pos hz, String.data_append]
    intro hmem
    rcases List.mem_append.mp hmem with h1 | h2
    · rw [show ("-" : String).data = ['-'] from rfl] at h1
      simp at h1
    · exact underscore_not_mem_natDigits _ _ h2
  · rw [if_neg hz]
    exact underscore_not_mem_natDigits _ _

theorem digitsVal_append_digit (ds : List Char) (c : Char) :
    digitsVal (ds ++ [c]) = 10 * digitsVal ds + (c.toNat - Char.toNat '0') := by
  rw [digitsVal, digitsVal, List.foldl_append]
  rfl

theorem digitChar_val (d : ℕ) (hd : d < 10) :
    (digitChar d).toNat - Char.toNat '0' = d := by
  rw [digitChar]
  interval_cases d <;> decide

theorem digitsVal_natDigits : ∀ (fuel n : ℕ), n < fuel →
    digitsVal (natDigits fuel n) = n
  | 0, _, h => by omega
  | fuel + 1, n, h => by
    simp only [natDigits]
    by_cases hn : n < 10
    · rw [if_pos hn]
      rw [show ([digitChar n] : List Char) = [] ++ [digitChar n] from rfl,
        digitsVal_append_digit, digitChar_val n hn]
      rw [show digitsVal ([] : List Char) = 0 from rfl]
      omega
    · rw [if_neg hn, digitsVal_append_digit, digitChar_val (n % 10) (by omega),
        digitsVal_natDigits fuel (n / 10) (by omega)]
      omega

theorem natStr_data_inj (a b : ℕ) (h : (natStr a).data = (natStr b).data) :
    a = b := by
  have h2 : natDigits (a + 1) a = natDigits (b + 1) b := h
  calc a = digitsVal (natDigits (a + 1) a) :=
        (digitsVal_natDigits (a + 1) a (by omega)).symm
    _ = digitsVal (natDigits (b + 1) b) := congrArg digitsVal h2
    _ = b := digitsVal_natDigits (b + 1) b (by omega)

theorem mem_of_head? {α : Type} (l : List α) (c : α) (h : l.head? = some c) :
    c ∈ l := by
  cases l with
  | nil => simp at h
  | cons x xs =>
    simp at h
    exact h ▸ List.mem_cons_self x xs

theorem intStr_data_inj (z1 z2 : ℤ) (h : (intStr z1).data = (intStr z2).data) :
    z1 = z2 := by
  rw [intStr, intStr] at h
  by_cases h1 : z1 < 0 <;> by_cases h2 : z2 < 0
  · rw [if_pos h1, if_pos h2, String.data_append, String.data_append] at h
    rw [show ("-" : String).data = ['-'] from rfl] at h
    simp only [List.singleton_append, List.cons.injEq] at h
    have := natStr_data_inj _ _ h.2
    omega
  · rw [if_pos h1, if_neg h2, String.data_append] at h
    rw [show ("-" : String).data = ['-'] from rfl] at h
    have hh : ((natStr z2.natAbs).data).head? = some '-' := by
      rw [← h]
      rfl
    have hmem : '-' ∈ (natStr z2.natAbs).data := mem_of_head? _ _ hh
    obtain ⟨d, hd, hc⟩ := natDigits_chars _ _ '-' hmem
    exact absurd hc.symm (digitChar_ne_dash d hd)
  · rw [if_neg h1, if_pos h2, String.data_append] at h
    rw [show ("-" : String).data = ['-'] from rfl] at h
    have hh : ((natStr z1.natAbs).data).head? = some '-' := by
      rw [h]
      rfl
    have hmem : '-' ∈ (natStr z1.natAbs).data := mem_of_head? _ _ hh
    obtain ⟨d, hd, hc⟩ := natDigits_chars _ _ '-' hmem
    exact absurd hc.symm (digitChar_ne_dash d hd)
  · rw [if_neg h1, if_neg h2] at h
    have := natStr_data_inj _ _ h
    omega

theorem osPathJoin_right_inj (a b1 b2 : List Char)
    (hh : b1.head? = b2.head?) (h : osPathJoin a b1 = osPathJoin a b2) :
    b1 = b2 := by
  have habs : isAbsPath b1 = isAbsPath b2 := by
    rw [isAbsPath, isAbsPath, hh]
  rw [osPathJoin, osPathJoin] at h
  by_cases hb : isAbsPath b1 = true
  · have hb2 : isAbsPath b2 = true := habs ▸ hb
    rw [if_pos hb, if_pos hb2] at h
    exact h
  · have hb2 : ¬ isAbsPath b2 = true := by
      rw [← habs]
      exact hb
    rw [if_neg hb, if_neg hb2] at h
    by_cases ha : a = []
    · rw [if_pos ha, if_pos ha] at h
      exact h
    · rw [if_neg ha, if_neg ha] at h
      by_cases hl : a.getLast? = some '/'
      · rw [if_pos hl, if_pos hl] at h
        exact List.append_cancel_left h
      · rw [if_neg hl, if_neg hl] at h
        have h2 := List.append_cancel_left h
        simpa using h2

theorem bodyData (stem X Y : String) :
    (stem ++ "_" ++ X ++ "_" ++ Y ++ ".laz").data =
      stem.data ++ '_' :: (X.data ++ '_' :: (Y.data ++ (".laz" : String).data)) := by
  simp only [String.data_append]
  simp [List.append_assoc]

theorem head?_stem_underscore (stem : String) (r1 r2 : List Char) :
    (stem.data ++ '_' :: r1).head? = (stem.data ++ '_' :: r2).head? := by
  rcases hsd : stem.data with _ | ⟨c, cs⟩ <;> simp

theorem lazTileName_inj (dir stem : String) (sx1 sy1 sx2 sy2 : ℚ)
    (h : lazTileName dir stem sx1 sy1 = lazTileName dir stem sx2 sy2) :
    ratTrunc sx1 = ratTrunc sx2 ∧ ratTrunc sy1 = ratTrunc sy2 := by
  simp only [lazTileName] at h
  have hd : osPathJoin dir.data
      (stem ++ "_" ++ intStr (ratTrunc sx1) ++ "_" ++
        intStr (ratTrunc sy1) ++ ".laz").data =
      osPathJoin dir.data
      (stem ++ "_" ++ intStr (ratTrunc sx2) ++ "_" ++
        intStr (ratTrunc sy2) ++ ".laz").data := by
    injection h with hd2
  have hb := osPathJoin_right_inj dir.data _ _
    (by rw [bodyData, bodyData]; exact head?_stem_underscore stem _ _) hd
  rw [bodyData, bodyData] at hb
  have hb2 := List.append_cancel_left hb
  rw [List.cons.injEq] at hb2
  have hb3 := hb2.2
  have hsplit := congrArg (splitOnChar '_') hb3
  rw [splitOnChar_append_no_sep '_' _ _ (underscore_not_mem_intStr _),
    splitOnChar_append_no_sep '_' _ _ (underscore_not_mem_intStr _)] at hsplit
  rw [List.cons.injEq] at hsplit
  have hX := hsplit.1
  have hXeq : ratTrunc sx1 = ratTrunc sx2 := intStr_data_inj _ _ hX
  rw [hX] at hb3
  have hv := List.append_cancel_left hb3
  rw [List.cons.injEq] at hv
  have hY := List.append_cancel_right hv.2
  exact ⟨hXeq, intStr_data_inj _ _ hY⟩

theorem truncAt (F t gz : ℤ) :
    ratTrunc (qadd (((F : ℤ) : ℚ) * ((gz : ℤ) : ℚ))
      (qmul (((t : ℤ) : ℚ)) (((gz : ℤ) : ℚ)))) = (F + t) * gz := by
  rw [qadd_eq, qmul_eq]
  have h : ((F : ℤ) : ℚ) * ((gz : ℤ) : ℚ) + ((t : ℤ) : ℚ) * ((gz : ℤ) : ℚ) =
      (((F + t) * gz : ℤ) : ℚ) := by
    push_cast
    ring
  rw [h, ratTrunc_intCast]

theorem tileNameAt_inj (dir stem : String) (FX FY gz : ℤ) (hgz : 0 < gz)
    (a b : ℤ × ℤ)
    (h : tileNameAt dir stem (((FX : ℤ) : ℚ) * ((gz : ℤ) : ℚ))
        (((FY : ℤ) : ℚ) * ((gz : ℤ) : ℚ)) ((gz : ℤ) : ℚ) a =
      tileNameAt dir stem (((FX : ℤ) : ℚ) * ((gz : ℤ) : ℚ))
        (((FY : ℤ) : ℚ) * ((gz : ℤ) : ℚ)) ((gz : ℤ) : ℚ) b) : a = b := by
  simp only [tileNameAt] at h
  have ht := lazTileName_inj dir stem _ _ _ _ h
  rw [truncAt, truncAt, truncAt, truncAt] at ht
  have hgnz : gz ≠ 0 := by omega
  have h1 : a.1 = b.1 := by
    have := mul_right_cancel₀ hgnz ht.1
    omega
  have h2 : a.2 = b.2 := by
    have := mul_right_cancel₀ hgnz ht.2
    omega
  exact Prod.ext h1 h2

/-- The dict determined by the per-key view. -/
def absReg (st : List ((ℤ × ℤ) × LazTile)) : List ((ℤ × ℤ) × String) :=
  st.map (fun e => (e.1, e.2.name))

/-- The output directory determined by the per-key view, valid while
distinct keys hold distinct paths. -/
def absFiles (st : List ((ℤ × ℤ) × LazTile)) :
    List (String × List (ℚ × ℚ)) :=
  st.map (fun e => (e.2.name, e.2.pts))

/-- The file-level state determined by the per-key view. -/
def absState (st : List ((ℤ × ℤ) × LazTile)) : LazState :=
  ⟨absReg st, absFiles st⟩

theorem hasKey_absReg : ∀ (st : List ((ℤ × ℤ) × LazTile)) (txy : ℤ × ℤ),
    hasKey (absReg st) txy = absHasTile st txy
  | [], _ => rfl
  | e :: rest, txy => by
    show ((e.1 == txy) || hasKey (absReg rest) txy) =
      ((e.1 == txy) || absHasTile rest txy)
    rw [hasKey_absReg rest txy]

theorem absReg_appendTile : ∀ (st : List ((ℤ × ℤ) × LazTile)) (txy : ℤ × ℤ)
    (sel : List (ℚ × ℚ)), absReg (appendTile st txy sel) = absReg st
  | [], _, _ => rfl
  | e :: rest, txy, sel => by
    simp only [appendTile]
    by_cases he : (e.1 == txy) = true
    · rw [if_pos he]
      rfl
    · rw [if_neg he]
      show (e.1, e.2.name) :: absReg (appendTile rest txy sel) =
        (e.1, e.2.name) :: absReg rest
      rw [absReg_appendTile rest txy sel]

theorem appendFile_abs (nf : (ℤ × ℤ) → String)
    (hinj : ∀ a b : ℤ × ℤ, nf a = nf b → a = b) :
    ∀ (st : List ((ℤ × ℤ) × LazTile)) (txy : ℤ × ℤ) (sel : List (ℚ × ℚ)),
      (∀ e ∈ st, e.2.name = nf e.1) → absHasTile st txy = true →
      appendFile (absFiles st) (nf txy) sel = absFiles (appendTile st txy sel)
  | [], txy, sel, _, hh => by simp [absHasTile] at hh
  | e :: rest, txy, sel, hnames, hh => by
    have hname := hnames e (List.mem_cons_self e rest)
    by_cases he : e.1 = txy
    · have hb : (e.2.name == nf txy) = true := by
        rw [beq_iff_eq, hname, he]
      have hb2 : (e.1 == txy) = true := by
        rw [beq_iff_eq]
        exact he
      show appendFile ((e.2.name, e.2.pts) :: absFiles rest) (nf txy) sel =
        absFiles (appendTile (e :: rest) txy sel)
      simp only [appendFile, appendTile]
      rw [if_pos hb, if_pos hb2]
      rfl
    · have hb : (e.2.name == nf txy) = false := by
        rw [beq_eq_false_iff_ne, hname]
        intro hc
        exact he (hinj _ _ hc)
      have hb2 : (e.1 == txy) = false := by
        rw [beq_eq_false_iff_ne]
        exact he
      have hh2 : absHasTile rest txy = true := by
        simp only [absHasTile, List.any_cons] at hh
        rw [Bool.or_eq_true] at hh
        rcases hh with h1 | h2
        · rw [hb2] at h1
          exact Bool.noConfusion h1
        · exact h2
      show appendFile ((e.2.name, e.2.pts) :: absFiles rest) (nf txy) sel =
        absFiles (appendTile (e :: rest) txy sel)
      simp only [appendFile, appendTile]
      rw [if_neg (by rw [hb]; simp), if_neg (by rw [hb2]; simp)]
      show (e.2.name, e.2.pts) :: appendFile (absFiles rest) (nf txy) sel =
        (e.2.name, e.2.pts) :: absFiles (appendTile rest txy sel)
      rw [appendFile_abs nf hinj rest txy sel
        (fun f hf => hnames f (List.mem_cons_of_mem e hf)) hh2]

theorem writeFile_fresh : ∀ (files : List (String × List (ℚ × ℚ)))
    (nm : String) (sel : List (ℚ × ℚ)), (∀ f ∈ files, f.1 ≠ nm) →
    writeFile files nm sel = files ++ [(nm, sel)]
  | [], _, _, _ => rfl
  | e :: rest, nm, sel, hf => by
    simp only [writeFile]
    have hb : (e.1 == nm) = false := by
      rw [beq_eq_false_iff_ne]
      exact hf e (List.mem_cons_self e rest)
    rw [if_neg (by rw [hb]; simp)]
    rw [writeFile_fresh rest nm sel
      (fun f h => hf f (List.mem_cons_of_mem e h))]
    simp

theorem absPair_abs (dir stem : String) (ox oy g : ℚ)
    (pts chunk : List (ℚ × ℚ))
    (hinj : ∀ a b : ℤ × ℤ, tileNameAt dir stem ox oy g a =
      tileNameAt dir stem ox oy g b → a = b)
    (st : List ((ℤ × ℤ) × LazTile)) (txy : ℤ × ℤ)
    (hst : TileInv dir stem ox oy g pts st) :
    processPair dir stem ox oy g chunk (absState st) txy =
      absState (absPair dir stem ox oy g chunk st txy) := by
  have hnames : ∀ e ∈ st, e.2.name = tileNameAt dir stem ox oy g e.1 :=
    fun e he => (hst e he).2
  simp only [processPair, absPair]
  by_cases hsel : (chunk.filter (fun p => tileIdx ox g p.1 == txy.1 &&
      tileIdx oy g p.2 == txy.2)).isEmpty = true
  · rw [if_pos hsel, if_pos hsel]
  · rw [if_neg hsel, if_neg hsel]
    have hregs : (absState st).registry = absReg st := rfl
    have hfs : (absState st).files = absFiles st := rfl
    rw [hregs, hfs, hasKey_absReg]
    by_cases hht : absHasTile st txy = true
    · rw [if_pos hht, if_pos hht]
      simp only [absState]
      rw [absReg_appendTile st txy _]
      exact congrArg _ (appendFile_abs (tileNameAt dir stem ox oy g) hinj
        st txy _ hnames hht)
    · rw [if_neg hht, if_neg hht]
      simp only [absState]
      have hfresh : ∀ f ∈ absFiles st,
          f.1 ≠ tileNameAt dir stem ox oy g txy := by
        intro f hf
        rw [absFiles, List.mem_map] at hf
        obtain ⟨e, he, rfl⟩ := hf
        rw [hnames e he]
        intro hc
        apply hht
        rw [absHasTile, List.any_eq_true]
        exact ⟨e, he, by rw [beq_iff_eq]; exact hinj _ _ hc⟩
      rw [writeFile_fresh (absFiles st) _ _ hfresh]
      simp [absReg, absFiles]

theorem foldPairs_abs (dir stem : String) (ox oy g : ℚ)
    (pts chunk : List (ℚ × ℚ)) (hchunk : ∀ p ∈ chunk, p ∈ pts)
    (hinj : ∀ a b : ℤ × ℤ, tileNameAt dir stem ox oy g a =
      tileNameAt dir stem ox oy g b → a = b) :
    ∀ (l : List (ℤ × ℤ)) (st : List ((ℤ × ℤ) × LazTile)),
      TileInv dir stem ox oy g pts st →
      l.foldl (processPair dir stem ox oy g chunk) (absState st) =
        absState (l.foldl (absPair dir stem ox oy g chunk) st)
  | [], _, _ => rfl
  | a :: l, st, hst => by
    rw [List.foldl_cons, List.foldl_cons,
      absPair_abs dir stem ox oy g pts chunk hinj st a hst]
    exact foldPairs_abs dir stem ox oy g pts chunk hchunk hinj l
      (absPair dir stem ox oy g chunk st a)
      (absPair_inv dir stem ox oy g pts chunk hchunk st a hst)

theorem absChunk_abs (dir stem : String) (ox oy g : ℚ) (mtx mty : ℤ)
    (pts chunk : List (ℚ × ℚ)) (hchunk : ∀ p ∈ chunk, p ∈ pts)
    (hinj : ∀ a b : ℤ × ℤ, tileNameAt dir stem ox oy g a =
      tileNameAt dir stem ox oy g b → a = b)
    (st : List ((ℤ × ℤ) × LazTile))
    (hst : TileInv dir stem ox oy g pts st) :
    processChunk dir stem ox oy g mtx mty (absState st) chunk =
      absState (absChunk dir stem ox oy g mtx mty st chunk) := by
  rw [processChunk, absChunk]
  exact foldPairs_abs dir stem ox oy g pts chunk hchunk hinj
    (tilePairs mtx mty) st hst

theorem foldChunks_abs (dir stem : String) (ox oy g : ℚ) (mtx mty : ℤ)
    (pts : List (ℚ × ℚ))
    (hinj : ∀ a b : ℤ × ℤ, tileNameAt dir stem ox oy g a =
      tileNameAt dir stem ox oy g b → a = b) :
    ∀ (cl : List (List (ℚ × ℚ))) (st : List ((ℤ × ℤ) × LazTile)),
      (∀ c ∈ cl, ∀ p ∈ c, p ∈ pts) → TileInv dir stem ox oy g pts st →
      cl.foldl (processChunk dir stem ox oy g mtx mty) (absState st) =
        absState (cl.foldl (absChunk dir stem ox oy g mtx mty) st)
  | [], _, _, _ => rfl
  | c :: cl, st, hcl, hst => by
    rw [List.foldl_cons, List.foldl_cons,
      absChunk_abs dir stem ox oy g mtx mty pts c
        (hcl c (List.mem_cons_self c cl)) hinj st hst]
    exact foldChunks_abs dir stem ox oy g mtx mty pts hinj cl
      (absChunk dir stem ox oy g mtx mty st c)
      (fun c2 h2 => hcl c2 (List.mem_cons_of_mem c h2))
      (absChunk_inv dir stem ox oy g mtx mty pts c
        (hcl c (List.mem_cons_self c cl)) st hst)

/-- C2 (amended): for a positive integer grid size (as the repository
passes: the pointcloudsplit argument is argparse type=int), when
neither coordinate maximum of the input lies exactly on a grid line,
laz_tile_split conserves points on disk (the per-file point counts sum
to the input count), the files on disk are exactly the registered tile
paths in registration order, each registered path is
{stem}_{int(start_x)}_{int(start_y)}.laz under the output directory,
and every point of a tile file lies within that tile's half-open
[origin, origin + size) bounds on both axes. -/
theorem C2_split_amended (dir stem : String) (pts : List (ℚ × ℚ))
    (gz : ℤ) (hg : 0 < gz)
    (hoffx : ∀ k : ℤ, listMaxQ (pts.map Prod.fst) ≠ (k : ℚ) * (gz : ℚ))
    (hoffy : ∀ k : ℤ, listMaxQ (pts.map Prod.snd) ≠ (k : ℚ) * (gz : ℚ)) :
    filesSum (lazTileSplit dir stem pts (gz : ℚ)).files = pts.length ∧
    (lazTileSplit dir stem pts (gz : ℚ)).files.map Prod.fst =
      (lazTileSplit dir stem pts (gz : ℚ)).registry.map Prod.snd ∧
    (∀ e ∈ (lazTileSplit dir stem pts (gz : ℚ)).registry,
      e.2 = lazTileName dir stem
        (qadd (lazGridOrigin (listMinQ (pts.map Prod.fst)) (gz : ℚ))
          (qmul ((e.1.1 : ℤ) : ℚ) (gz : ℚ)))
        (qadd (lazGridOrigin (listMinQ (pts.map Prod.snd)) (gz : ℚ))
          (qmul ((e.1.2 : ℤ) : ℚ) (gz : ℚ)))) ∧
    (∀ pr ∈ (lazTileSplit dir stem pts (gz : ℚ)).registry.zip
        (lazTileSplit dir stem pts (gz : ℚ)).files, ∀ p ∈ pr.2.2,
      lazGridOrigin (listMinQ (pts.map Prod.fst)) (gz : ℚ) +
        ((pr.1.1.1 : ℤ) : ℚ) * (gz : ℚ) ≤ p.1 ∧
      p.1 < lazGridOrigin (listMinQ (pts.map Prod.fst)) (gz : ℚ) +
        ((pr.1.1.1 : ℤ) : ℚ) * (gz : ℚ) + (gz : ℚ) ∧
      lazGridOrigin (listMinQ (pts.map Prod.snd)) (gz : ℚ) +
        ((pr.1.1.2 : ℤ) : ℚ) * (gz : ℚ) ≤ p.2 ∧
      p.2 < lazGridOrigin (listMinQ (pts.map Prod.snd)) (gz : ℚ) +
        ((pr.1.1.2 : ℤ) : ℚ) * (gz : ℚ) + (gz : ℚ)) := by
  have hgq : (0 : ℚ) < (gz : ℚ) := by exact_mod_cast hg
  have hgz : (gz : ℚ) ≠ 0 := ne_of_gt hgq
  have hbnd : ∀ p ∈ pts,
      ⌊listMinQ (pts.map Prod.fst) / (gz : ℚ)⌋ ≤ ⌊p.1 / (gz : ℚ)⌋ ∧
      ⌊p.1 / (gz : ℚ)⌋ < ⌈listMaxQ (pts.map Prod.fst) / (gz : ℚ)⌉ ∧
      ⌊listMinQ (pts.map Prod.snd) / (gz : ℚ)⌋ ≤ ⌊p.2 / (gz : ℚ)⌋ ∧
      ⌊p.2 / (gz : ℚ)⌋ < ⌈listMaxQ (pts.map Prod.snd) / (gz : ℚ)⌉ := by
    intro p hp
    have hfx := floor_boundsQ (gz : ℚ) hgq (listMinQ (pts.map Prod.fst)) p.1
      (listMaxQ (pts.map Prod.fst))
      (listMinQ_le _ _ (List.mem_map_of_mem Prod.fst hp))
      (le_listMaxQ _ _ (List.mem_map_of_mem Prod.fst hp)) hoffx
    have hfy := floor_boundsQ (gz : ℚ) hgq (listMinQ (pts.map Prod.snd)) p.2
      (listMaxQ (pts.map Prod.snd))
      (listMinQ_le _ _ (List.mem_map_of_mem Prod.snd hp))
      (le_listMaxQ _ _ (List.mem_map_of_mem Prod.snd hp)) hoffy
    exact ⟨hfx.1, hfx.2, hfy.1, hfy.2⟩
  obtain ⟨hsum, hinv⟩ := lazFold_master dir stem pts (gz : ℚ) hgq
    ⌊listMinQ (pts.map Prod.fst) / (gz : ℚ)⌋
    ⌈listMaxQ (pts.map Prod.fst) / (gz : ℚ)⌉
    ⌊listMinQ (pts.map Prod.snd) / (gz : ℚ)⌋
    ⌈listMaxQ (pts.map Prod.snd) / (gz : ℚ)⌉ hbnd
  have hchunkAll : ∀ c ∈ chunks chunkSize.toNat pts, ∀ p ∈ c, p ∈ pts := by
    intro c hc p hp
    have hm : p ∈ (chunks chunkSize.toNat pts).flatten :=
      List.mem_flatten.mpr ⟨c, hc, hp⟩
    rwa [chunks_flatten] at hm
  have hinj := tileNameAt_inj dir stem
    ⌊listMinQ (pts.map Prod.fst) / (gz : ℚ)⌋
    ⌊listMinQ (pts.map Prod.snd) / (gz : ℚ)⌋ gz hg
  have habs : lazTileSplit dir stem pts (gz : ℚ) =
      absState ((chunks chunkSize.toNat pts).foldl
        (absChunk dir stem
          (((⌊listMinQ (pts.map Prod.fst) / (gz : ℚ)⌋ : ℤ) : ℚ) * (gz : ℚ))
          (((⌊listMinQ (pts.map Prod.snd) / (gz : ℚ)⌋ : ℤ) : ℚ) * (gz : ℚ))
          (gz : ℚ)
          (⌈listMaxQ (pts.map Prod.fst) / (gz : ℚ)⌉ -
            ⌊listMinQ (pts.map Prod.fst) / (gz : ℚ)⌋)
          (⌈listMaxQ (pts.map Prod.snd) / (gz : ℚ)⌉ -
            ⌊listMinQ (pts.map Prod.snd) / (gz : ℚ)⌋)) []) := by
    rw [lazTileSplit_eq dir stem pts (gz : ℚ) hgz]
    rw [show (⟨[], []⟩ : LazState) = absState [] from rfl]
    exact foldChunks_abs dir stem _ _ _ _ _ pts hinj
      (chunks chunkSize.toNat pts) [] hchunkAll
      (fun e he => absurd he (List.not_mem_nil e))
  refine ⟨?_, ?_, ?_, ?_⟩
  · have hfs : ∀ s : List ((ℤ × ℤ) × LazTile),
        filesSum (absState s).files = absStateSum s := by
      intro s
      show (List.map (fun e => e.2.length) (absFiles s)).sum = absStateSum s
      rw [absFiles, List.map_map]
      rfl
    rw [habs, hfs]
    exact hsum
  · have hns : ∀ s : List ((ℤ × ℤ) × LazTile),
        (absState s).files.map Prod.fst = (absState s).registry.map Prod.snd := by
      intro s
      show (absFiles s).map Prod.fst = (absReg s).map Prod.snd
      rw [absFiles, absReg, List.map_map, List.map_map]
      rfl
    rw [habs]
    exact hns _
  · intro e he
    rw [habs] at he
    obtain ⟨k, hk, rfl⟩ := List.mem_map.mp he
    have hname := (hinv k hk).2
    dsimp only
    rw [lazGridOrigin_eq, lazGridOrigin_eq]
    exact hname
  · intro pr hpr p hp
    rw [habs] at hpr
    have hzip : ∀ s : List ((ℤ × ℤ) × LazTile),
        (absState s).registry.zip (absState s).files =
          s.map (fun k => ((k.1, k.2.name), (k.2.name, k.2.pts))) := by
      intro s
      show (absReg s).zip (absFiles s) = _
      rw [absReg, absFiles, List.zip_map']
    rw [hzip] at hpr
    obtain ⟨k, hk, rfl⟩ := List.mem_map.mp hpr
    dsimp only at hp ⊢
    have h1 := (hinv k hk).1 p hp
    have hxle : ((⌊listMinQ (pts.map Prod.fst) / (gz : ℚ)⌋ : ℤ) : ℚ) *
        (gz : ℚ) ≤ p.1 := by
      have ha : ((⌊listMinQ (pts.map Prod.fst) / (gz : ℚ)⌋ : ℤ) : ℚ) ≤
          p.1 / (gz : ℚ) := by
        calc ((⌊listMinQ (pts.map Prod.fst) / (gz : ℚ)⌋ : ℤ) : ℚ)
            ≤ ((⌊p.1 / (gz : ℚ)⌋ : ℤ) : ℚ) := by
              exact_mod_cast (hbnd p h1.1).1
          _ ≤ p.1 / (gz : ℚ) := Int.floor_le _
      have hb := (le_div_iff hgq).mp ha
      linarith
    have hyle : ((⌊listMinQ (pts.map Prod.snd) / (gz : ℚ)⌋ : ℤ) : ℚ) *
        (gz : ℚ) ≤ p.2 := by
      have ha : ((⌊listMinQ (pts.map Prod.snd) / (gz : ℚ)⌋ : ℤ) : ℚ) ≤
          p.2 / (gz : ℚ) := by
        calc ((⌊listMinQ (pts.map Prod.snd) / (gz : ℚ)⌋ : ℤ) : ℚ)
            ≤ ((⌊p.2 / (gz : ℚ)⌋ : ℤ) : ℚ) := by
              exact_mod_cast (hbnd p h1.1).2.2.1
          _ ≤ p.2 / (gz : ℚ) := Int.floor_le _
      have hb := (le_div_iff hgq).mp ha
      linarith
    have hx := h1.2.1
    have hy := h1.2.2
    rw [tileIdx_eq_floor (gz : ℚ) hgq _ p.1 hxle] at hx
    rw [tileIdx_eq_floor (gz : ℚ) hgq _ p.2 hyle] at hy
    have hfx : ⌊p.1 / (gz : ℚ)⌋ =
        k.1.1 + ⌊listMinQ (pts.map Prod.fst) / (gz : ℚ)⌋ := by omega
    have hfy : ⌊p.2 / (gz : ℚ)⌋ =
        k.1.2 + ⌊listMinQ (pts.map Prod.snd) / (gz : ℚ)⌋ := by omega
    have hx1 : ((⌊p.1 / (gz : ℚ)⌋ : ℤ) : ℚ) ≤ p.1 / (gz : ℚ) :=
      Int.floor_le _
    have hx2 : p.1 / (gz : ℚ) < ((⌊p.1 / (gz : ℚ)⌋ : ℤ) : ℚ) + 1 :=
      Int.lt_floor_add_one _
    have hy1 : ((⌊p.2 / (gz : ℚ)⌋ : ℤ) : ℚ) ≤ p.2 / (gz : ℚ) :=
      Int.floor_le _
    have hy2 : p.2 / (gz : ℚ) < ((⌊p.2 / (gz : ℚ)⌋ : ℤ) : ℚ) + 1 :=
      Int.lt_floor_add_one _
    rw [hfx] at hx1 hx2
    rw [hfy] at hy1 hy2
    have hx1m := (le_div_iff hgq).mp hx1
    have hx2m := (div_lt_iff hgq).mp hx2
    have hy1m := (le_div_iff hgq).mp hy1
    have hy2m := (div_lt_iff hgq).mp hy2
    rw [lazGridOrigin_eq, lazGridOrigin_eq]
    push_cast at hx1m hx2m hy1m hy2m ⊢
    refine ⟨by linarith, by nlinarith, by linarith, by nlinarith⟩

/-- C2 witness: the amended conservation property at the spec scenario
(three points, integer grid 2000), together with the concrete
registry, the files on disk and their single-point contents. -/
theorem C2_split_amended_witness :
    filesSum (lazTileSplit "out" "tile" c2WPts ((2000 : ℤ) : ℚ)).files =
      c2WPts.length ∧
    (lazTileSplit "out" "tile" c2WPts ((2000 : ℤ) : ℚ)).registry =
      [((0, 0), "out/tile_0_0.laz"), ((0, 1), "out/tile_0_2000.laz"),
        ((1, 0), "out/tile_2000_0.laz")] ∧
    (lazTileSplit "out" "tile" c2WPts ((2000 : ℤ) : ℚ)).files.map
      (fun e => (e.1, e.2.length)) =
      [("out/tile_0_0.laz", 1), ("out/tile_0_2000.laz", 1),
        ("out/tile_2000_0.laz", 1)] := by
  refine ⟨(C2_split_amended "out" "tile" c2WPts 2000 (by decide)
    (not_on_gridQ _ ((2000 : ℤ) : ℚ) (by decide) (by decide))
    (not_on_gridQ _ ((2000 : ℤ) : ℚ) (by decide) (by decide))).1,
    by decide, by decide⟩
